import Mathlib

set_option maxHeartbeats 1600000
set_option maxRecDepth 4000

/-!
Verification of the type-annotation layout core of the formatter in
crates/compiler/fmt/src/annotation.rs.

The producer AST, the space-lifting pass, the multiline predicate, the
lowering to the generic layout node, and the blank-line squashing helpers
are embedded directly from that source file.  Helpers that live in other
files of the same crate (merge_spaces_conservative from expr.rs, the Node
renderer and parenthesization table from node.rs, the Buf text buffer,
pattern lifting from pattern.rs) are modelled from the specification; each
such definition carries a doc comment starting with "Modelled from the
spec".  Source positions (Loc / regions) carry no layout information and
are dropped.
-/

/-- A spacing marker: a blank line, a line comment, or a doc comment
(CommentOrNewline in roc_parse::ast). -/
inductive CommentOrNewline where
  | newline
  | lineComment (text : String)
  | docComment (text : String)
deriving Repr, DecidableEq

/-- CommentOrNewline::is_newline. -/
def CommentOrNewline.is_newline : CommentOrNewline → Bool
  | .newline => true
  | _ => false

/-- The comment markers of a spacing run, in order, with the pure
blank-line markers dropped. -/
def comments_of (sp : List CommentOrNewline) : List CommentOrNewline :=
  sp.filter (fun c => !c.is_newline)

theorem dropWhile_len_le (p : α → Bool) (l : List α) :
    (l.dropWhile p).length ≤ l.length := by
  induction l with
  | nil => simp
  | cons a t ih =>
    rw [List.dropWhile_cons]
    split
    · exact Nat.le_succ_of_le ih
    · simp

/-- Modelled from the spec (section 3): runs of two or more consecutive
blank-line markers collapse to exactly one when merged. -/
def collapse : List CommentOrNewline → List CommentOrNewline
  | [] => []
  | .newline :: rest =>
    .newline :: collapse (rest.dropWhile CommentOrNewline.is_newline)
  | .lineComment t :: rest => .lineComment t :: collapse rest
  | .docComment t :: rest => .docComment t :: collapse rest
termination_by l => l.length
decreasing_by
  · simpa using Nat.lt_succ_of_le (dropWhile_len_le _ _)
  · simp
  · simp

/-- Modelled from the spec (section 4.1): merge_spaces_conservative from
the fmt crate's expr.rs, which is not part of the excerpt.  If both runs
hold only blank-line markers the result is empty; otherwise the two runs
are concatenated in order and consecutive blank-line markers collapse to
one.  Comments are never dropped or reordered. -/
def merge_spaces_conservative (a b : List CommentOrNewline) : List CommentOrNewline :=
  if (a ++ b).all CommentOrNewline.is_newline then [] else collapse (a ++ b)

/-- Modelled from the spec (section 4.1): merge_spaces from roc_parse
(not in the excerpt): plain order-preserving concatenation with blank-line
runs collapsed. -/
def merge_spaces (a b : List CommentOrNewline) : List CommentOrNewline :=
  collapse (a ++ b)

/-- remove_leading_blank_lines from annotation.rs. -/
def remove_leading_blank_lines (sp : List CommentOrNewline) : List CommentOrNewline :=
  let chomp := (sp.takeWhile CommentOrNewline.is_newline).length
  if chomp > 1 then sp.drop (chomp - 1) else sp

/-- remove_trailing_blank_lines from annotation.rs.  As the source comment
notes, this is deliberately not symmetric with the leading variant. -/
def remove_trailing_blank_lines (sp : List CommentOrNewline) : List CommentOrNewline :=
  let chomp := (sp.reverse.takeWhile CommentOrNewline.is_newline).length
  if chomp = sp.length ∧ 1 ≤ sp.length then sp.take 1
  else sp.take (sp.length - chomp)

/-- FunctionArrow from roc_parse::ast: pure "->" or effectful "=>". -/
inductive FunctionArrow where
  | pure
  | effectful
deriving Repr, DecidableEq

/-- Modelled from the spec: a pattern occurring as a type-header bound
variable (roc_parse patterns are outside the excerpt); an identifier with
the same leading/trailing spacing wrappers as every other producer node. -/
inductive Pattern where
  | ident (name : String)
  | spaceBefore (inner : Pattern) (sp : List CommentOrNewline)
  | spaceAfter (inner : Pattern) (sp : List CommentOrNewline)
deriving Repr, DecidableEq

/-- TypeHeader from roc_parse::ast: a type name applied to bound-variable
patterns. -/
structure TypeHeader where
  name : String
  vars : List Pattern
deriving Repr, DecidableEq

/-- Modelled from the spec: Spaced string, the shape of an implements
clause's variable (a name with optional spacing wrappers). -/
inductive SpacedStr where
  | item (s : String)
  | spaceBefore (inner : SpacedStr) (sp : List CommentOrNewline)
  | spaceAfter (inner : SpacedStr) (sp : List CommentOrNewline)
deriving Repr, DecidableEq

mutual

/-- TypeAnnotation from roc_parse::ast (named TypeAnn here).  Collections
are inlined as an item list plus final comments; Loc wrappers are dropped. -/
inductive TypeAnn where
  | function (args : List TypeAnn) (arrow : FunctionArrow) (result : TypeAnn)
  | apply (module : String) (name : String) (args : List TypeAnn)
  | boundVariable (v : String)
  | asType (inner : TypeAnn) (sp : List CommentOrNewline) (header : TypeHeader)
  | record (fields : List AssignedField) (finalComments : List CommentOrNewline)
      (ext : Option TypeAnn)
  | tuple (elems : List TypeAnn) (finalComments : List CommentOrNewline)
      (ext : Option TypeAnn)
  | tagUnion (tags : List Tag) (finalComments : List CommentOrNewline)
      (ext : Option TypeAnn)
  | inferred
  | wildcard
  | whereAnn (ann : TypeAnn) (clauses : List ImplementsClause)
  | spaceBefore (inner : TypeAnn) (sp : List CommentOrNewline)
  | spaceAfter (inner : TypeAnn) (sp : List CommentOrNewline)
  | malformed (text : String)

/-- Tag from roc_parse::ast. -/
inductive Tag where
  | apply (name : String) (args : List TypeAnn)
  | spaceBefore (inner : Tag) (sp : List CommentOrNewline)
  | spaceAfter (inner : Tag) (sp : List CommentOrNewline)

/-- AssignedField over TypeAnn from roc_parse::ast. -/
inductive AssignedField where
  | requiredValue (name : String) (sp : List CommentOrNewline) (value : TypeAnn)
  | ignoredValue (name : String) (sp : List CommentOrNewline) (value : TypeAnn)
  | optionalValue (name : String) (sp : List CommentOrNewline) (value : TypeAnn)
  | labelOnly (name : String)
  | spaceBefore (inner : AssignedField) (sp : List CommentOrNewline)
  | spaceAfter (inner : AssignedField) (sp : List CommentOrNewline)

/-- ImplementsClause from roc_parse::ast: a variable and the abilities it
must implement. -/
inductive ImplementsClause where
  | mk (var : SpacedStr) (abilities : List TypeAnn)

end

/-- Spaces from roc_parse::ast: an item with its lifted leading and
trailing spacing runs. -/
structure Spaces (α : Type) where
  before : List CommentOrNewline
  item : α
  after : List CommentOrNewline
deriving Repr, DecidableEq

/-- SpacesBefore from roc_parse::ast. -/
structure SpacesBefore (α : Type) where
  before : List CommentOrNewline
  item : α
deriving Repr, DecidableEq

/-- SpacesAfter from roc_parse::ast. -/
structure SpacesAfter (α : Type) where
  item : α
  after : List CommentOrNewline
deriving Repr, DecidableEq

/-- Modelled from the spec: Spaceable::maybe_before from roc_parse — wrap
the node in a leading-spacing wrapper unless the run is empty. -/
def TypeAnn.maybe_before (a : TypeAnn) (sp : List CommentOrNewline) : TypeAnn :=
  if sp.isEmpty then a else .spaceBefore a sp

/-- Modelled from the spec: Spaceable::maybe_after from roc_parse. -/
def TypeAnn.maybe_after (a : TypeAnn) (sp : List CommentOrNewline) : TypeAnn :=
  if sp.isEmpty then a else .spaceAfter a sp

/-- lower from annotation.rs: re-wrap a lifted annotation with its
leading/trailing runs. -/
def lower (l : Spaces TypeAnn) : TypeAnn :=
  if l.before.isEmpty then
    if l.after.isEmpty then l.item
    else .spaceAfter l.item l.after
  else if l.after.isEmpty then .spaceBefore l.item l.before
  else .spaceBefore (.spaceAfter l.item l.after) l.before

/-- Modelled from the spec (section 4.3): pattern space lifting
(pattern.rs is not in the excerpt); wrapper-held spacing merges into the
accumulated leading/trailing run, like every other producer node. -/
def pattern_lift_spaces : Pattern → Spaces Pattern
  | .ident n => ⟨[], .ident n, []⟩
  | .spaceBefore inner sp =>
    let i := pattern_lift_spaces inner
    ⟨merge_spaces_conservative sp i.before, i.item, i.after⟩
  | .spaceAfter inner sp =>
    let i := pattern_lift_spaces inner
    ⟨i.before, i.item, merge_spaces_conservative i.after sp⟩

/-- Modelled from the spec: Pattern maybe_before. -/
def Pattern.maybe_before (p : Pattern) (sp : List CommentOrNewline) : Pattern :=
  if sp.isEmpty then p else .spaceBefore p sp

/-- Modelled from the spec: pattern_lift_spaces_after from pattern.rs —
lift only the trailing run, re-attaching the leading run. -/
def pattern_lift_spaces_after (p : Pattern) : SpacesAfter Pattern :=
  let l := pattern_lift_spaces p
  ⟨l.item.maybe_before l.before, l.after⟩

/-- The last-variable lifting loop of type_head_lift_spaces_after. -/
def lift_last_var : List Pattern → List Pattern × List CommentOrNewline
  | [] => ([], [])
  | [x] =>
    let l := pattern_lift_spaces_after x
    ([l.item], l.after)
  | x :: y :: rest =>
    let r := lift_last_var (y :: rest)
    (x :: r.1, r.2)

/-- type_head_lift_spaces_after from annotation.rs. -/
def type_head_lift_spaces_after (h : TypeHeader) : SpacesAfter TypeHeader :=
  let r := lift_last_var h.vars
  ⟨⟨h.name, r.1⟩, r.2⟩

mutual

/-- ann_lift_spaces from annotation.rs: strip wrapper-held spacing from a
type annotation and surface it as the node's leading/trailing runs. -/
def ann_lift_spaces : TypeAnn → Spaces TypeAnn
  | .apply module name args =>
    if args.isEmpty then ⟨[], .apply module name args, []⟩
    else
      let p := lift_apply_args args
      ⟨[], .apply module name p.1, p.2⟩
  | .function args arrow res =>
    let fp := lift_first_arg args
    let newRes := ann_lift_spaces_after res
    ⟨fp.2, .function fp.1 arrow newRes.item, newRes.after⟩
  | .spaceBefore inner sp =>
    let i := ann_lift_spaces inner
    ⟨merge_spaces_conservative sp i.before, i.item, i.after⟩
  | .spaceAfter inner sp =>
    let i := ann_lift_spaces inner
    ⟨i.before, i.item, merge_spaces_conservative i.after sp⟩
  | .tuple elems final ext =>
    match ext with
    | some e =>
      let l := ann_lift_spaces_after e
      ⟨[], .tuple elems final (some l.item), l.after⟩
    | none => ⟨[], .tuple elems final none, []⟩
  | .record fields final ext =>
    match ext with
    | some e =>
      let l := ann_lift_spaces_after e
      ⟨[], .record fields final (some l.item), l.after⟩
    | none => ⟨[], .record fields final none, []⟩
  | .tagUnion tags final ext =>
    match ext with
    | some e =>
      let l := ann_lift_spaces_after e
      ⟨[], .tagUnion tags final (some l.item), l.after⟩
    | none => ⟨[], .tagUnion tags final none, []⟩
  | .boundVariable v => ⟨[], .boundVariable v, []⟩
  | .inferred => ⟨[], .inferred, []⟩
  | .wildcard => ⟨[], .wildcard, []⟩
  | .malformed t => ⟨[], .malformed t, []⟩
  | .whereAnn inner clauses =>
    let ni := ann_lift_spaces_before inner
    let cl := lift_last_clause clauses
    ⟨ni.before, .whereAnn ni.item cl.1, cl.2⟩
  | .asType inner sp header =>
    let na := ann_lift_spaces_before inner
    let nh := type_head_lift_spaces_after header
    ⟨na.before, .asType na.item sp nh.item, nh.after⟩
termination_by a => (sizeOf a, 0)

/-- The argument loop of ann_lift_spaces for Apply: every argument but the
last is re-lowered in place, the last argument keeps its leading run
re-wrapped and donates its trailing run to the whole node. -/
def lift_apply_args : List TypeAnn → List TypeAnn × List CommentOrNewline
  | [] => ([], [])
  | [last] =>
    let l := ann_lift_spaces last
    (if l.before.isEmpty then [l.item] else [.spaceBefore l.item l.before], l.after)
  | a :: b :: rest =>
    let l := ann_lift_spaces a
    let r := lift_apply_args (b :: rest)
    (lower l :: r.1, r.2)
termination_by l => (sizeOf l, 0)

/-- The first-argument lifting of ann_lift_spaces for Function. -/
def lift_first_arg : List TypeAnn → List TypeAnn × List CommentOrNewline
  | [] => ([], [])
  | first :: rest =>
    let l := ann_lift_spaces_before first
    (l.item :: rest, l.before)
termination_by l => (sizeOf l, 2)

/-- The last-clause lifting loop of ann_lift_spaces for Where. -/
def lift_last_clause : List ImplementsClause → List ImplementsClause × List CommentOrNewline
  | [] => ([], [])
  | [c] =>
    let l := implements_clause_lift_spaces_after c
    ([l.item], l.after)
  | c :: d :: rest =>
    let r := lift_last_clause (d :: rest)
    (c :: r.1, r.2)
termination_by l => (sizeOf l, 0)

/-- implements_clause_lift_spaces_after from annotation.rs. -/
def implements_clause_lift_spaces_after : ImplementsClause → SpacesAfter ImplementsClause
  | .mk var abilities =>
    let r := lift_last_ability abilities
    ⟨.mk var r.1, r.2⟩
termination_by c => (sizeOf c, 0)

/-- The last-ability lifting loop of implements_clause_lift_spaces_after. -/
def lift_last_ability : List TypeAnn → List TypeAnn × List CommentOrNewline
  | [] => ([], [])
  | [x] =>
    let l := ann_lift_spaces_after x
    ([l.item], l.after)
  | x :: y :: rest =>
    let r := lift_last_ability (y :: rest)
    (x :: r.1, r.2)
termination_by l => (sizeOf l, 0)

/-- ann_lift_spaces_before from annotation.rs. -/
def ann_lift_spaces_before (ann : TypeAnn) : SpacesBefore TypeAnn :=
  let l := ann_lift_spaces ann
  ⟨l.before, l.item.maybe_after l.after⟩
termination_by (sizeOf ann, 1)

/-- ann_lift_spaces_after from annotation.rs. -/
def ann_lift_spaces_after (ann : TypeAnn) : SpacesAfter TypeAnn :=
  let l := ann_lift_spaces ann
  ⟨l.item.maybe_before l.before, l.after⟩
termination_by (sizeOf ann, 1)

end

/-- ImplementsClause::is_multiline from annotation.rs: the source comment
reads "No, always put abilities in an implements clause on one line". -/
def ImplementsClause.is_multiline : ImplementsClause → Bool :=
  fun _ => false

mutual

/-- TypeAnnotation::is_multiline from annotation.rs.  SpaceBefore/SpaceAfter
wrappers always count as multiline (their runs always end in newlines); the
bracketed collections additionally consult their final comment run, per
is_collection_multiline. -/
def TypeAnn.is_multiline : TypeAnn → Bool
  | .spaceBefore _ _ => true
  | .spaceAfter _ _ => true
  | .wildcard => false
  | .inferred => false
  | .boundVariable _ => false
  | .malformed _ => false
  | .function args _ res => res.is_multiline || any_ann_multiline args
  | .apply _ _ args => any_ann_multiline args
  | .asType lhs _ _ => lhs.is_multiline
  | .whereAnn ann clauses =>
    ann.is_multiline || clauses.any ImplementsClause.is_multiline
  | .tuple elems final ext =>
    (match ext with
     | some e => e.is_multiline
     | none => false)
    || (!final.isEmpty || any_ann_multiline elems)
  | .record fields final ext =>
    (match ext with
     | some e => e.is_multiline
     | none => false)
    || (!final.isEmpty || any_field_multiline fields)
  | .tagUnion tags final ext =>
    (match ext with
     | some e => e.is_multiline
     | none => false)
    || (!final.isEmpty || any_tag_multiline tags)
termination_by a => sizeOf a

/-- Tag::is_multiline from annotation.rs. -/
def Tag.is_multiline : Tag → Bool
  | .apply _ args => any_ann_multiline args
  | .spaceBefore _ _ => true
  | .spaceAfter _ _ => true
termination_by t => sizeOf t

/-- is_multiline_assigned_field_help from annotation.rs. -/
def AssignedField.is_multiline : AssignedField → Bool
  | .requiredValue _ sp v => !sp.isEmpty || v.is_multiline
  | .optionalValue _ sp v => !sp.isEmpty || v.is_multiline
  | .ignoredValue _ sp v => !sp.isEmpty || v.is_multiline
  | .labelOnly _ => false
  | .spaceBefore _ _ => true
  | .spaceAfter _ _ => true
termination_by f => sizeOf f

/-- Iterator helper: any argument is multiline. -/
def any_ann_multiline : List TypeAnn → Bool
  | [] => false
  | a :: rest => a.is_multiline || any_ann_multiline rest
termination_by l => sizeOf l

/-- Iterator helper: any field is multiline. -/
def any_field_multiline : List AssignedField → Bool
  | [] => false
  | f :: rest => f.is_multiline || any_field_multiline rest
termination_by l => sizeOf l

/-- Iterator helper: any tag is multiline. -/
def any_tag_multiline : List Tag → Bool
  | [] => false
  | t :: rest => t.is_multiline || any_tag_multiline rest
termination_by l => sizeOf l

end

/-- ty_is_outdentable from annotation.rs. -/
def ty_is_outdentable : TypeAnn → Bool
  | .spaceBefore sub sp =>
    (sp.all CommentOrNewline.is_newline && sub.is_multiline) && ty_is_outdentable sub
  | .spaceAfter sub _ => ty_is_outdentable sub
  | .whereAnn ann _ => ann.is_multiline && ty_is_outdentable ann
  | .record fields final ext => TypeAnn.is_multiline (.record fields final ext)
  | .tagUnion tags final ext => TypeAnn.is_multiline (.tagUnion tags final ext)
  | .tuple elems final ext => TypeAnn.is_multiline (.tuple elems final ext)
  | _ => false

/-- Modelled from the spec: ExtractSpaces from roc_parse — peel the
wrapper chain off a node, concatenating the runs it holds. -/
def TypeAnn.extract_spaces : TypeAnn → Spaces TypeAnn
  | .spaceBefore inner sp =>
    let i := inner.extract_spaces
    ⟨sp ++ i.before, i.item, i.after⟩
  | .spaceAfter inner sp =>
    let i := inner.extract_spaces
    ⟨i.before, i.item, i.after ++ sp⟩
  | a => ⟨[], a, []⟩

/-- Modelled from the spec: ExtractSpaces for the implements-clause
variable. -/
def SpacedStr.extract_item : SpacedStr → String
  | .item s => s
  | .spaceBefore inner _ => inner.extract_item
  | .spaceAfter inner _ => inner.extract_item

/-- Braces from the fmt crate's collection module: the bracket kind of a
delimited sequence. -/
inductive Braces where
  | round
  | curly
  | square
deriving Repr, DecidableEq

/-- Prec from node.rs: precedence levels carried by lowered nodes. -/
inductive Prec where
  | term
  | apply
  | asType
  | functionType
deriving Repr, DecidableEq

/-- Parens from annotation.rs: the eight ambient parenthesization
contexts. -/
inductive Parens where
  | notNeeded
  | inCollection
  | inFunctionType
  | inApply
  | inOperator
  | inAsPattern
  | inApplyLastArg
  | inClosurePattern
deriving Repr, DecidableEq

/-- Newlines from annotation.rs. -/
inductive Newlines where
  | no
  | yes
deriving Repr, DecidableEq

/-- Sp from node.rs: the spacing descriptor preceding an item of a lowered
sequence. -/
structure Sp where
  default_space : Bool
  force_newline : Bool
  comments : List CommentOrNewline
deriving Repr, DecidableEq

/-- Sp::empty. -/
def Sp.empty : Sp := ⟨false, false, []⟩

/-- Sp::with_space: a spacing descriptor holding the given comments, with
a default single space and no forced newline. -/
def Sp.with_space (sp : List CommentOrNewline) : Sp := ⟨true, false, sp⟩

mutual

/-- Node from node.rs: the producer-agnostic layout tree.  The variant
embedding a lifted type annotation (used for nested where-clauses) is
named typeAnn here. -/
inductive Node where
  | literal (text : String)
  | sequence (first : Node) (extraIndentForRest : Bool) (rest : List (Sp × Node))
  | commaSequence (allowBlankLines : Bool) (indentRest : Bool) (first : Node)
      (rest : List Item)
  | delimitedSequence (braces : Braces) (after : Sp) (items : List DelimitedItem)
      (indentItems : Bool)
  | typeAnn (ann : TypeAnn)

/-- Item from node.rs: one follow-on element of a comma sequence. -/
inductive Item where
  | mk (before : List CommentOrNewline) (commaBefore : Bool) (newline : Bool)
      (space : Bool) (node : Node)

/-- DelimitedItem from node.rs: one element of a delimited sequence. -/
inductive DelimitedItem where
  | mk (before : List CommentOrNewline) (newline : Bool) (space : Bool)
      (node : Node) (commaAfter : Bool)

end

def Item.before : Item → List CommentOrNewline
  | .mk b _ _ _ _ => b

def Item.newline : Item → Bool
  | .mk _ _ n _ _ => n

def Item.node : Item → Node
  | .mk _ _ _ _ n => n

def Item.set_newline : Item → Item
  | .mk b c _ s n => .mk b c true s n

def DelimitedItem.before : DelimitedItem → List CommentOrNewline
  | .mk b _ _ _ _ => b

def DelimitedItem.newline : DelimitedItem → Bool
  | .mk _ n _ _ _ => n

def DelimitedItem.node : DelimitedItem → Node
  | .mk _ _ _ n _ => n

def DelimitedItem.set_newline : DelimitedItem → DelimitedItem
  | .mk b _ s n c => .mk b true s n c

def DelimitedItem.unset_comma : DelimitedItem → DelimitedItem
  | .mk b nl s n _ => .mk b nl s n false

/-- NodeInfo from node.rs: a lowered node with its lifted leading and
trailing runs, indentation requirement and precedence. -/
structure NodeInfo where
  before : List CommentOrNewline
  node : Node
  after : List CommentOrNewline
  needs_indent : Bool
  prec : Prec

/-- NodeInfo::item: a bare term node with no surrounding spacing. -/
def NodeInfo.item (node : Node) : NodeInfo := ⟨[], node, [], false, .term⟩

mutual

/-- Modelled from the spec (section 4.5): Formattable::is_multiline for
lowered nodes (node.rs is not in the excerpt).  A node is multiline iff
some stored spacing descriptor forces a newline or holds comments, or a
child is multiline; a delimited sequence additionally consults its
trailing descriptor and its precomputed indent-items flag. -/
def Node.is_multiline : Node → Bool
  | .literal _ => false
  | .sequence first _ rest => first.is_multiline || sp_rest_multiline rest
  | .commaSequence _ _ first rest => first.is_multiline || items_multiline rest
  | .delimitedSequence _ after items indentItems =>
    indentItems || after.force_newline || !after.comments.isEmpty
      || ditems_multiline items
  | .typeAnn ann => ann.is_multiline
termination_by n => sizeOf n

def sp_rest_multiline : List (Sp × Node) → Bool
  | [] => false
  | (sp, n) :: rest =>
    sp.force_newline || !sp.comments.isEmpty || n.is_multiline
      || sp_rest_multiline rest
termination_by l => sizeOf l

def items_multiline : List Item → Bool
  | [] => false
  | .mk before _ newline _ n :: rest =>
    newline || !before.isEmpty || n.is_multiline || items_multiline rest
termination_by l => sizeOf l

def ditems_multiline : List DelimitedItem → Bool
  | [] => false
  | .mk before newline _ n _ :: rest =>
    newline || !before.isEmpty || n.is_multiline || ditems_multiline rest
termination_by l => sizeOf l

end

/-- Modelled from the spec (section 4.2): needs_parens from node.rs, the
pure (precedence, context) lookup table.  A bare term never needs parens;
a function type needs them in every context that demands wrapping; an
application needs them in application-argument position. -/
def needs_parens : Prec → Parens → Bool
  | .term, _ => false
  | .functionType, .notNeeded => false
  | .functionType, _ => true
  | .apply, .inApply => true
  | .apply, .inClosurePattern => true
  | .apply, _ => false
  | .asType, .notNeeded => false
  | .asType, _ => true

/-- Modelled from the spec: parens_around_node from node.rs — wrap the
lowered node in round brackets; the result is a bare term and keeps the
leading/trailing runs outside the brackets. -/
def parens_around_node (item : NodeInfo) (includeSpace : Bool) : NodeInfo :=
  ⟨item.before,
   .delimitedSequence .round ⟨includeSpace, false, []⟩
     [.mk [] false includeSpace item.node false] false,
   item.after, false, .term⟩

/-- Modelled from the spec (section 4.2): NodeInfo::add_parens from
node.rs — consult the needs_parens table for the ambient context. -/
def NodeInfo.add_parens (item : NodeInfo) (parens : Parens) : NodeInfo :=
  if needs_parens item.prec parens then parens_around_node item false else item

/-- Modelled from the spec: NodeInfo::add_ty_ext_parens from node.rs.
Mirroring fmt_ext in annotation.rs, a collection's extension variable is
wrapped whenever it has a leading run or is not a bare term, and the
leading run moves inside the brackets so no whitespace precedes the ext
(the source debug-asserts that the resulting leading run is empty). -/
def NodeInfo.add_ty_ext_parens (item : NodeInfo) : NodeInfo :=
  if !item.before.isEmpty || item.prec != .term then
    ⟨[],
     .delimitedSequence .round Sp.empty
       [.mk item.before false false item.node false] false,
     item.after, false, .term⟩
  else item

/-- ann_prec from annotation.rs. -/
def ann_prec : TypeAnn → Prec
  | .function _ _ _ => .functionType
  | .apply _ _ _ => .apply
  | .boundVariable _ => .term
  | .asType _ _ _ => .apply
  | .record _ _ _ => .term
  | .tuple _ _ _ => .term
  | .tagUnion _ _ _ => .term
  | .inferred => .term
  | .wildcard => .term
  | .whereAnn _ _ => .apply
  | .spaceBefore inner _ => ann_prec inner
  | .spaceAfter inner _ => ann_prec inner
  | .malformed _ => .term

/-- The item loop of collection_to_node from annotation.rs, over the
already-lowered items: the first item's leading run has its blank-line
prefix squashed, every later item's leading run absorbs the previous
item's trailing run, and multiline-ness accumulates.  Returns the
delimited items, the last item's trailing run, and the accumulated
multiline flag. -/
def collect_delimited (sba : Bool) :
    Bool → List CommentOrNewline → List NodeInfo →
    List DelimitedItem × List CommentOrNewline × Bool
  | _, lastAfter, [] => ([], lastAfter, false)
  | isFirst, lastAfter, ni :: rest =>
    let before :=
      if isFirst then remove_leading_blank_lines ni.before
      else merge_spaces_conservative lastAfter ni.before
    let r := collect_delimited sba false ni.after rest
    (.mk before false (!isFirst || sba) ni.node true :: r.1, r.2.1,
     (ni.node.is_multiline || !before.isEmpty) || r.2.2)

/-- collection_to_node from annotation.rs, over the already-lowered item
NodeInfos (the source takes the item-lowering closure as a parameter; each
call site below lowers its items first). -/
def collection_to_node (braces : Braces) (sba : Bool)
    (lowered : List NodeInfo) (final : List CommentOrNewline) : Node :=
  let c := collect_delimited sba true [] lowered
  let finalComments :=
    remove_trailing_blank_lines (merge_spaces_conservative c.2.1 final)
  let multiline := c.2.2 || !finalComments.isEmpty
  let items :=
    if multiline then c.1.map DelimitedItem.set_newline
    else
      match c.1.reverse with
      | [] => c.1
      | lastItem :: revInit => (lastItem.unset_comma :: revInit).reverse
  .delimitedSequence braces
    ⟨!lowered.isEmpty && sba, multiline, finalComments⟩ items multiline

/-- maybe_add_ext from annotation.rs, over the already-lowered extension
node. -/
def maybe_add_ext (delim : Node) (ext : Option NodeInfo) : NodeInfo :=
  match ext with
  | some e0 =>
    let e := e0.add_ty_ext_parens
    ⟨[], .sequence delim false [(Sp.empty, e.node)], e.after, false, .term⟩
  | none => ⟨[], delim, [], false, .term⟩

/-- Modelled from the spec: lowering of a bound-variable pattern (the
pattern Nodify impl is not in the excerpt); wrapper runs merge into the
lifted leading/trailing runs exactly as for tags and fields. -/
def Pattern.toNode : Pattern → NodeInfo
  | .ident n => NodeInfo.item (.literal n)
  | .spaceBefore p sp =>
    let i := p.toNode
    { i with before := merge_spaces_conservative sp i.before }
  | .spaceAfter p sp =>
    let i := p.toNode
    { i with after := merge_spaces_conservative i.after sp }

/-- The variable loop of the type-header lowering, threading each
variable's trailing run into the next one's leading run. -/
def to_node_header_vars (lastAfter : List CommentOrNewline) :
    List Pattern → List (Sp × Node) × List CommentOrNewline
  | [] => ([], lastAfter)
  | p :: rest =>
    let ni := p.toNode
    let before := merge_spaces_conservative lastAfter ni.before
    let r := to_node_header_vars ni.after rest
    ((Sp.with_space before, ni.node) :: r.1, r.2)

/-- Modelled from the spec: lowering of a type header (name plus bound
variable patterns), mirroring the Tag::Apply lowering in annotation.rs. -/
def TypeHeader.toNode (h : TypeHeader) : NodeInfo :=
  if h.vars.isEmpty then NodeInfo.item (.literal h.name)
  else
    let r := to_node_header_vars [] h.vars
    ⟨[], .sequence (.literal h.name) true r.1, r.2, true, .apply⟩

mutual

/-- Nodify::to_node for TypeAnnotation from annotation.rs.  The expect
call on an empty function-argument list (a panic in the source) is
modelled as none, and propagates; the dbg! calls in the source are
side-effect-only and are dropped. -/
def TypeAnn.toNode : TypeAnn → Option NodeInfo
  | .apply module name args =>
    let first : Node :=
      .literal (if module.isEmpty then name else module ++ "." ++ name)
    match to_node_apply_args [] args with
    | none => none
    | some (rest, lastAfter) =>
      some ⟨[], .commaSequence false true first rest, lastAfter, true,
            if args.isEmpty then .term else .apply⟩
  | .spaceBefore inner sp =>
    match inner.toNode with
    | none => none
    | some ni => some { ni with before := merge_spaces_conservative sp ni.before }
  | .spaceAfter inner sp =>
    match inner.toNode with
    | none => none
    | some ni => some { ni with after := merge_spaces_conservative ni.after sp }
  | .function args arrow res =>
    match args with
    | [] => none
    | first :: rest =>
      match first.toNode with
      | none => none
      | some fn0 =>
        let firstNode := fn0.add_parens .inFunctionType
        match to_node_fn_rest [] rest with
        | none => none
        | some (restItems, lastAfter, mlAcc) =>
          match res.toNode with
          | none => none
          | some rn0 =>
            let resNode := rn0.add_parens .inFunctionType
            let multiline :=
              firstNode.node.is_multiline || !firstNode.after.isEmpty || mlAcc
                || resNode.node.is_multiline || !lastAfter.isEmpty
                || !resNode.before.isEmpty
            let restItems' :=
              if multiline then restItems.map Item.set_newline else restItems
            let arrowItem : Item :=
              .mk lastAfter false multiline true
                (.literal (match arrow with
                  | .pure => "->"
                  | .effectful => "=>"))
            let resItem : Item := .mk resNode.before false false true resNode.node
            some ⟨firstNode.before,
                  .commaSequence false false firstNode.node
                    (restItems' ++ [arrowItem, resItem]),
                  resNode.after, true, .functionType⟩
  | .asType left sp header =>
    match left.toNode with
    | none => none
    | some l0 =>
      let left' := l0.add_parens .inAsPattern
      let right := header.toNode.add_parens .inAsPattern
      let beforeAs := merge_spaces left'.after sp
      some ⟨left'.before,
            .sequence left'.node true
              [(Sp.with_space beforeAs, .literal "as"),
               (Sp.with_space right.before, right.node)],
            right.after, true, .asType⟩
  | .boundVariable v =>
    let item := NodeInfo.item (.literal v)
    some (if v == "implements" then parens_around_node item false else item)
  | .inferred => some (NodeInfo.item (.literal "_"))
  | .wildcard => some (NodeInfo.item (.literal "*"))
  | .malformed t => some (NodeInfo.item (.literal t))
  | .record fields final ext =>
    match to_node_fields fields, to_node_opt ext with
    | some lowered, some extOpt =>
      some (maybe_add_ext (collection_to_node .curly true lowered final) extOpt)
    | _, _ => none
  | .tagUnion tags final ext =>
    match to_node_tags tags, to_node_opt ext with
    | some lowered, some extOpt =>
      some (maybe_add_ext (collection_to_node .square false lowered final) extOpt)
    | _, _ => none
  | .tuple elems final ext =>
    match to_node_tuple_elems true elems, to_node_opt ext with
    | some lowered, some extOpt =>
      some (maybe_add_ext (collection_to_node .round false lowered final) extOpt)
    | _, _ => none
  | .whereAnn inner clauses =>
    let lifted := ann_lift_spaces (.whereAnn inner clauses)
    some ⟨lifted.before, .typeAnn lifted.item, lifted.after, true,
          ann_prec (.whereAnn inner clauses)⟩
termination_by a => (sizeOf a, 0)

/-- The argument loop of the Apply lowering, threading each argument's
trailing run into the next one's leading run. -/
def to_node_apply_args (lastAfter : List CommentOrNewline) :
    List TypeAnn → Option (List Item × List CommentOrNewline)
  | [] => some ([], lastAfter)
  | a :: rest =>
    match a.toNode with
    | none => none
    | some ni0 =>
      let ni := ni0.add_parens .inApply
      let before := merge_spaces_conservative lastAfter ni.before
      match to_node_apply_args ni.after rest with
      | none => none
      | some (items, la) =>
        some (.mk before false false true ni.node :: items, la)
termination_by l => (sizeOf l, 0)

/-- The non-first-argument loop of the Function lowering, accumulating the
multiline flag over merged leading runs. -/
def to_node_fn_rest (lastAfter : List CommentOrNewline) :
    List TypeAnn → Option (List Item × List CommentOrNewline × Bool)
  | [] => some ([], lastAfter, false)
  | a :: rest =>
    match a.toNode with
    | none => none
    | some ni0 =>
      let ni := ni0.add_parens .inFunctionType
      let before := merge_spaces_conservative lastAfter ni.before
      match to_node_fn_rest ni.after rest with
      | none => none
      | some (items, la, ml) =>
        some (.mk before true false true ni.node :: items, la,
              (ni.node.is_multiline || !before.isEmpty) || ml)
termination_by l => (sizeOf l, 0)

/-- The field-lowering loop of the Record case: every field is lowered and
wrapped for collection position. -/
def to_node_fields : List AssignedField → Option (List NodeInfo)
  | [] => some []
  | f :: rest =>
    match f.toNode with
    | none => none
    | some ni =>
      match to_node_fields rest with
      | none => none
      | some rest' => some (ni.add_parens .inCollection :: rest')
termination_by l => (sizeOf l, 0)

/-- The tag-lowering loop of the TagUnion case. -/
def to_node_tags : List Tag → Option (List NodeInfo)
  | [] => some []
  | t :: rest =>
    match t.toNode with
    | none => none
    | some ni =>
      match to_node_tags rest with
      | none => none
      | some rest' => some (ni.add_parens .inCollection :: rest')
termination_by l => (sizeOf l, 0)

/-- The element-lowering loop of the Tuple case: the first element is not
wrapped for collection position, later elements are. -/
def to_node_tuple_elems (isFirst : Bool) :
    List TypeAnn → Option (List NodeInfo)
  | [] => some []
  | e :: rest =>
    match e.toNode with
    | none => none
    | some ni =>
      match to_node_tuple_elems false rest with
      | none => none
      | some rest' =>
        some ((if isFirst then ni else ni.add_parens .inCollection) :: rest')
termination_by l => (sizeOf l, 0)

/-- Lowering of an optional extension annotation. -/
def to_node_opt : Option TypeAnn → Option (Option NodeInfo)
  | none => some none
  | some a =>
    match a.toNode with
    | none => none
    | some ni => some (some ni)
termination_by o => (sizeOf o, 0)

/-- Nodify::to_node for Tag from annotation.rs. -/
def Tag.toNode : Tag → Option NodeInfo
  | .apply name args =>
    if args.isEmpty then some (NodeInfo.item (.literal name))
    else
      match to_node_tag_args [] args with
      | none => none
      | some (newArgs, lastAfter) =>
        some ⟨[], .sequence (.literal name) true newArgs, lastAfter, true, .apply⟩
  | .spaceBefore inner sp =>
    match inner.toNode with
    | none => none
    | some ni => some { ni with before := merge_spaces_conservative sp ni.before }
  | .spaceAfter inner sp =>
    match inner.toNode with
    | none => none
    | some ni => some { ni with after := merge_spaces_conservative ni.after sp }
termination_by t => (sizeOf t, 0)

/-- The argument loop of the Tag::Apply lowering. -/
def to_node_tag_args (lastAfter : List CommentOrNewline) :
    List TypeAnn → Option (List (Sp × Node) × List CommentOrNewline)
  | [] => some ([], lastAfter)
  | a :: rest =>
    match a.toNode with
    | none => none
    | some ni0 =>
      let ni := ni0.add_parens .inApply
      let before := merge_spaces_conservative lastAfter ni.before
      match to_node_tag_args ni.after rest with
      | none => none
      | some (items, la) =>
        some ((Sp.with_space before, ni.node) :: items, la)
termination_by l => (sizeOf l, 0)

/-- Nodify::to_node for AssignedField from annotation.rs. -/
def AssignedField.toNode : AssignedField → Option NodeInfo
  | .requiredValue name sp value =>
    assigned_field_value_to_node name sp value ":"
  | .ignoredValue name sp value =>
    assigned_field_value_to_node ("_" ++ name) sp value ":"
  | .optionalValue name sp value =>
    assigned_field_value_to_node name sp value "?"
  | .labelOnly name => some ⟨[], .literal name, [], true, .term⟩
  | .spaceBefore inner sp =>
    match inner.toNode with
    | none => none
    | some ni => some { ni with before := merge_spaces_conservative sp ni.before }
  | .spaceAfter inner sp =>
    match inner.toNode with
    | none => none
    | some ni => some { ni with after := merge_spaces_conservative ni.after sp }
termination_by f => (sizeOf f, 0)

/-- assigned_field_value_to_node from annotation.rs. -/
def assigned_field_value_to_node (name : String) (sp : List CommentOrNewline)
    (value : TypeAnn) (sep : String) : Option NodeInfo :=
  match value.toNode with
  | none => none
  | some v =>
    some ⟨[], .sequence (.literal name) false
            [(Sp.with_space sp, .literal sep),
             (Sp.with_space v.before, v.node)],
          v.after, true, .term⟩
termination_by (sizeOf value, 1)

end

/-- The comment markers of a bound-variable pattern, in source order. -/
def Pattern.comments : Pattern → List CommentOrNewline
  | .ident _ => []
  | .spaceBefore p sp => comments_of sp ++ p.comments
  | .spaceAfter p sp => p.comments ++ comments_of sp

/-- The comment markers of a type header, in source order. -/
def TypeHeader.comments (h : TypeHeader) : List CommentOrNewline :=
  (h.vars.map Pattern.comments).flatten

/-- The comment markers of an implements-clause variable, in source
order. -/
def SpacedStr.comments : SpacedStr → List CommentOrNewline
  | .item _ => []
  | .spaceBefore s sp => comments_of sp ++ s.comments
  | .spaceAfter s sp => s.comments ++ comments_of sp

mutual

/-- The comment markers of a producer type annotation, in source order:
the sequence that a comment-preserving formatter must reproduce. -/
def TypeAnn.comments : TypeAnn → List CommentOrNewline
  | .function args _ res => list_ann_comments args ++ res.comments
  | .apply _ _ args => list_ann_comments args
  | .boundVariable _ => []
  | .asType inner sp header =>
    inner.comments ++ comments_of sp ++ header.comments
  | .record fields final ext =>
    list_field_comments fields ++ comments_of final ++ opt_ann_comments ext
  | .tuple elems final ext =>
    list_ann_comments elems ++ comments_of final ++ opt_ann_comments ext
  | .tagUnion tags final ext =>
    list_tag_comments tags ++ comments_of final ++ opt_ann_comments ext
  | .inferred => []
  | .wildcard => []
  | .whereAnn ann clauses => ann.comments ++ list_clause_comments clauses
  | .spaceBefore inner sp => comments_of sp ++ inner.comments
  | .spaceAfter inner sp => inner.comments ++ comments_of sp
  | .malformed _ => []
termination_by a => sizeOf a

def list_ann_comments : List TypeAnn → List CommentOrNewline
  | [] => []
  | a :: rest => a.comments ++ list_ann_comments rest
termination_by l => sizeOf l

def opt_ann_comments : Option TypeAnn → List CommentOrNewline
  | none => []
  | some a => a.comments
termination_by o => sizeOf o

def Tag.comments : Tag → List CommentOrNewline
  | .apply _ args => list_ann_comments args
  | .spaceBefore t sp => comments_of sp ++ t.comments
  | .spaceAfter t sp => t.comments ++ comments_of sp
termination_by t => sizeOf t

def list_tag_comments : List Tag → List CommentOrNewline
  | [] => []
  | t :: rest => t.comments ++ list_tag_comments rest
termination_by l => sizeOf l

def AssignedField.comments : AssignedField → List CommentOrNewline
  | .requiredValue _ sp v => comments_of sp ++ v.comments
  | .ignoredValue _ sp v => comments_of sp ++ v.comments
  | .optionalValue _ sp v => comments_of sp ++ v.comments
  | .labelOnly _ => []
  | .spaceBefore f sp => comments_of sp ++ f.comments
  | .spaceAfter f sp => f.comments ++ comments_of sp
termination_by f => sizeOf f

def list_field_comments : List AssignedField → List CommentOrNewline
  | [] => []
  | f :: rest => f.comments ++ list_field_comments rest
termination_by l => sizeOf l

def ImplementsClause.comments : ImplementsClause → List CommentOrNewline
  | .mk var abilities => var.comments ++ list_ann_comments abilities
termination_by c => sizeOf c

def list_clause_comments : List ImplementsClause → List CommentOrNewline
  | [] => []
  | c :: rest => c.comments ++ list_clause_comments rest
termination_by l => sizeOf l

end

mutual

/-- The comment markers a lowered layout node stores, in rendering
order. -/
def Node.comments : Node → List CommentOrNewline
  | .literal _ => []
  | .sequence first _ rest => first.comments ++ sp_rest_comments rest
  | .commaSequence _ _ first rest => first.comments ++ items_comments rest
  | .delimitedSequence _ after items _ =>
    ditems_comments items ++ comments_of after.comments
  | .typeAnn ann => ann.comments
termination_by n => sizeOf n

def sp_rest_comments : List (Sp × Node) → List CommentOrNewline
  | [] => []
  | (sp, n) :: rest => comments_of sp.comments ++ n.comments ++ sp_rest_comments rest
termination_by l => sizeOf l

def items_comments : List Item → List CommentOrNewline
  | [] => []
  | .mk before _ _ _ n :: rest =>
    comments_of before ++ n.comments ++ items_comments rest
termination_by l => sizeOf l

def ditems_comments : List DelimitedItem → List CommentOrNewline
  | [] => []
  | .mk before _ _ n _ :: rest =>
    comments_of before ++ n.comments ++ ditems_comments rest
termination_by l => sizeOf l

end

/-- The comment markers of a lowered node together with its lifted
leading/trailing runs, in rendering order. -/
def NodeInfo.comments (ni : NodeInfo) : List CommentOrNewline :=
  comments_of ni.before ++ ni.node.comments ++ comments_of ni.after

/-- Modelled from the spec: the caller-owned growable text buffer (Buf in
the fmt crate); the text accumulated so far. -/
abbrev Buf := String

/-- Modelled from the spec: is the buffer at the start of a line. -/
def Buf.at_line_start (b : Buf) : Bool :=
  b.isEmpty || b.takeRight 1 == "\n"

/-- Modelled from the spec: Buf::ensure_ends_with_newline. -/
def Buf.ensure_newline (b : Buf) : Buf :=
  if b.at_line_start then b else b ++ "\n"

/-- Modelled from the spec: Buf::indent — emit indentation spaces only at
the start of a line. -/
def Buf.indent (b : Buf) (n : Nat) : Buf :=
  if b.at_line_start then b ++ String.mk (List.replicate n ' ') else b

/-- Modelled from the spec: the INDENT unit from the fmt crate's
spaces.rs (one indentation level). -/
def INDENT : Nat := 4

/-- Modelled from the spec (section 4.7): fmt_spaces from spaces.rs —
emit the run's comments each on their own line, honouring its blank-line
markers. -/
def fmt_spaces (b : Buf) (sps : List CommentOrNewline) (indent : Nat) : Buf :=
  sps.foldl
    (fun b c =>
      match c with
      | .newline => b.ensure_newline
      | .lineComment t => ((b.indent indent) ++ "#" ++ t) ++ "\n"
      | .docComment t => ((b.indent indent) ++ "##" ++ t) ++ "\n")
    b

/-- Modelled from the spec (section 4.7): fmt_comments_only from
spaces.rs — emit only the comments of the run, each on its own line. -/
def fmt_comments_only (b : Buf) (sps : List CommentOrNewline) (indent : Nat) : Buf :=
  sps.foldl
    (fun b c =>
      match c with
      | .newline => b
      | .lineComment t => ((b.indent indent) ++ "#" ++ t) ++ "\n"
      | .docComment t => ((b.indent indent) ++ "##" ++ t) ++ "\n")
    b

/-- roc_parse::keyword::WHERE. -/
def kw_where : String := "where"

/-- roc_parse::keyword::IMPLEMENTS. -/
def kw_implements : String := "implements"

/-- The parenthesization decision of the Apply branch of fmt_ty_ann:
write parens exactly when in application-argument position with a
non-empty argument list. -/
def apply_write_parens (parens : Parens) (args : List TypeAnn) : Bool :=
  parens == .inApply && !args.isEmpty

/-- The needs_indent computation of the Apply branch of fmt_ty_ann. -/
def apply_needs_indent (args : List TypeAnn) : Bool :=
  args.dropLast.any TypeAnn.is_multiline ||
    (match args.getLast? with
     | some a =>
       a.is_multiline &&
         (!a.extract_spaces.before.isEmpty || !ty_is_outdentable a)
     | none => false)

/-- The opening bracket text of a delimited sequence. -/
def Braces.open_text : Braces → String
  | .round => "("
  | .curly => "\x7b"
  | .square => "["

/-- The closing bracket text of a delimited sequence. -/
def Braces.close_text : Braces → String
  | .round => ")"
  | .curly => "\x7d"
  | .square => "]"

mutual

/-- fmt_ty_ann from annotation.rs, fuelled: every recursive call steps the
fuel down, and exhausted fuel returns the buffer unchanged (the spec's
section 5 asserts termination; fuel only makes the recursion manifestly
well-founded).  The unreachable wrapper branches after lifting, and the
panic inside the Function lowering, are modelled as none; there is no
other failure. -/
def fmtF : Nat → Parens → Newlines → Nat → Bool → TypeAnn → Buf → Option Buf
  | 0, _, _, _, _, _, b => some b
  | fuel + 1, parens, newlines, indent, newlineAtTop, a, buf =>
    let me := ann_lift_spaces a
    let b1 :=
      if !me.before.isEmpty then fmt_comments_only buf.ensure_newline me.before indent
      else buf
    let b2 := if newlineAtTop then b1.ensure_newline else b1
    let core : Option Buf :=
      match me.item with
      | .spaceBefore _ _ => none
      | .spaceAfter _ _ => none
      | .apply pkg name args =>
        let b3 := b2.indent indent
        let wp := apply_write_parens parens args
        let b4 := if wp then b3 ++ "(" else b3
        let b5 := if !pkg.isEmpty then (b4 ++ pkg) ++ "." else b4
        let b6 := b5 ++ name
        let needsInd := apply_needs_indent args
        let argIndent := if needsInd then indent + INDENT else indent
        (fmt_apply_args fuel needsInd argIndent args b6).map
          (fun b7 => if wp then b7 ++ ")" else b7)
      | .boundVariable v =>
        some ((b2.indent indent) ++ (if v == "implements" then "(implements)" else v))
      | .wildcard => some ((b2.indent indent) ++ "*")
      | .inferred => some ((b2.indent indent) ++ "_")
      | .whereAnn annot clauses =>
        match fmtF fuel parens newlines indent false annot b2 with
        | none => none
        | some b3 =>
          let b4 :=
            if clauses.any ImplementsClause.is_multiline
            then (b3 ++ "\n").indent indent
            else b3 ++ " "
          fmt_where_clauses fuel parens newlines indent true clauses b4
      | .malformed raw => some ((b2.indent indent) ++ raw)
      | item =>
        match item.toNode with
        | none => none
        | some ni => renderF fuel ((ni.add_parens parens).node) indent b2
    core.map
      (fun b => if !me.after.isEmpty then fmt_comments_only b me.after indent else b)

/-- The argument loop of the Apply branch of fmt_ty_ann. -/
def fmt_apply_args : Nat → Bool → Nat → List TypeAnn → Buf → Option Buf
  | 0, _, _, _, b => some b
  | _ + 1, _, _, [], b => some b
  | fuel + 1, needsInd, argIndent, a :: rest, b =>
    if needsInd then
      let ex := a.extract_spaces
      let b1 := (fmt_spaces b ex.before argIndent).ensure_newline
      match fmtF fuel .inApply .yes argIndent false ex.item b1 with
      | none => none
      | some b2 =>
        fmt_apply_args fuel needsInd argIndent rest (fmt_spaces b2 ex.after argIndent)
    else
      match fmtF fuel .inApply .no argIndent false a (b ++ " ") with
      | none => none
      | some b2 => fmt_apply_args fuel needsInd argIndent rest b2

/-- The clause loop of the Where branch of fmt_ty_ann. -/
def fmt_where_clauses :
    Nat → Parens → Newlines → Nat → Bool → List ImplementsClause → Buf → Option Buf
  | 0, _, _, _, _, _, b => some b
  | _ + 1, _, _, _, _, [], b => some b
  | fuel + 1, parens, newlines, indent, isFirst, c :: rest, b =>
    let b1 := ((b.indent indent) ++ (if isFirst then kw_where else ",")) ++ " "
    match fmt_clause fuel parens newlines indent c b1 with
    | none => none
    | some b2 => fmt_where_clauses fuel parens newlines indent false rest b2

/-- ImplementsClause::format_with_options from annotation.rs. -/
def fmt_clause : Nat → Parens → Newlines → Nat → ImplementsClause → Buf → Option Buf
  | 0, _, _, _, _, b => some b
  | fuel + 1, parens, newlines, indent, .mk var abilities, b =>
    let b1 := ((b ++ var.extract_item) ++ " " ++ kw_implements) ++ " "
    fmt_abilities fuel parens newlines indent true abilities b1

/-- The ability loop of ImplementsClause::format_with_options, with " & "
separators. -/
def fmt_abilities :
    Nat → Parens → Newlines → Nat → Bool → List TypeAnn → Buf → Option Buf
  | 0, _, _, _, _, _, b => some b
  | _ + 1, _, _, _, _, [], b => some b
  | fuel + 1, parens, newlines, indent, isFirst, a :: rest, b =>
    let b1 := if isFirst then b else b ++ " & "
    match fmtF fuel parens newlines indent false a b1 with
    | none => none
    | some b2 => fmt_abilities fuel parens newlines indent false rest b2

/-- Modelled from the spec (section 4.7): the Node renderer from node.rs —
a single top-down walk emitting literal text verbatim, stored comments in
order, and brackets around delimited sequences; an embedded lifted type
annotation renders through fmt_ty_ann. -/
def renderF : Nat → Node → Nat → Buf → Option Buf
  | 0, _, _, b => some b
  | fuel + 1, node, indent, b =>
    match node with
    | .literal t => some (b ++ t)
    | .typeAnn a => fmtF fuel .notNeeded .no indent false a b
    | .sequence first extra rest =>
      match renderF fuel first indent b with
      | none => none
      | some b1 =>
        render_sp_rest fuel (if extra then indent + INDENT else indent) rest b1
    | .commaSequence _ indentRest first rest =>
      match renderF fuel first indent b with
      | none => none
      | some b1 =>
        render_items fuel (if indentRest then indent + INDENT else indent) rest b1
    | .delimitedSequence braces after items indentItems =>
      let b1 := b ++ braces.open_text
      match render_ditems fuel (if indentItems then indent + INDENT else indent) items b1 with
      | none => none
      | some b2 =>
        some ((fmt_comments_only b2 after.comments indent) ++ braces.close_text)

/-- Modelled from the spec: rendering the follow-on items of a plain
sequence. -/
def render_sp_rest : Nat → Nat → List (Sp × Node) → Buf → Option Buf
  | 0, _, _, b => some b
  | _ + 1, _, [], b => some b
  | fuel + 1, indent, (sp, n) :: rest, b =>
    let b1 := fmt_comments_only b sp.comments indent
    let b2 := if sp.force_newline then b1 ++ "\n" else if sp.default_space then b1 ++ " " else b1
    match renderF fuel n indent (b2.indent indent) with
    | none => none
    | some b3 => render_sp_rest fuel indent rest b3

/-- Modelled from the spec: rendering the follow-on items of a comma
sequence. -/
def render_items : Nat → Nat → List Item → Buf → Option Buf
  | 0, _, _, b => some b
  | _ + 1, _, [], b => some b
  | fuel + 1, indent, .mk before commaBefore newline space n :: rest, b =>
    let b1 := fmt_comments_only b before indent
    let b2 := if commaBefore then b1 ++ "," else b1
    let b3 := if newline then b2 ++ "\n" else if space then b2 ++ " " else b2
    match renderF fuel n indent (b3.indent indent) with
    | none => none
    | some b4 => render_items fuel indent rest b4

/-- Modelled from the spec: rendering the items of a delimited
sequence. -/
def render_ditems : Nat → Nat → List DelimitedItem → Buf → Option Buf
  | 0, _, _, b => some b
  | _ + 1, _, [], b => some b
  | fuel + 1, indent, .mk before newline space n commaAfter :: rest, b =>
    let b1 := fmt_comments_only b before indent
    let b2 := if newline then b1 ++ "\n" else if space then b1 ++ " " else b1
    match renderF fuel n indent (b2.indent indent) with
    | none => none
    | some b3 =>
      render_ditems fuel indent rest (if commaAfter then b3 ++ "," else b3)

end

mutual

/-- The precondition of claim C9: every function-type node in the
annotation has at least one argument. -/
def TypeAnn.no_empty_fn : TypeAnn → Bool
  | .function args _ res =>
    !args.isEmpty && list_no_empty_fn args && res.no_empty_fn
  | .apply _ _ args => list_no_empty_fn args
  | .boundVariable _ => true
  | .asType inner _ _ => inner.no_empty_fn
  | .record fields _ ext => fields_no_empty_fn fields && opt_no_empty_fn ext
  | .tuple elems _ ext => list_no_empty_fn elems && opt_no_empty_fn ext
  | .tagUnion tags _ ext => tags_no_empty_fn tags && opt_no_empty_fn ext
  | .inferred => true
  | .wildcard => true
  | .whereAnn ann clauses => ann.no_empty_fn && clauses_no_empty_fn clauses
  | .spaceBefore inner _ => inner.no_empty_fn
  | .spaceAfter inner _ => inner.no_empty_fn
  | .malformed _ => true
termination_by a => sizeOf a

def list_no_empty_fn : List TypeAnn → Bool
  | [] => true
  | a :: rest => a.no_empty_fn && list_no_empty_fn rest
termination_by l => sizeOf l

def opt_no_empty_fn : Option TypeAnn → Bool
  | none => true
  | some a => a.no_empty_fn
termination_by o => sizeOf o

def Tag.no_empty_fn : Tag → Bool
  | .apply _ args => list_no_empty_fn args
  | .spaceBefore t _ => t.no_empty_fn
  | .spaceAfter t _ => t.no_empty_fn
termination_by t => sizeOf t

def tags_no_empty_fn : List Tag → Bool
  | [] => true
  | t :: rest => t.no_empty_fn && tags_no_empty_fn rest
termination_by l => sizeOf l

def AssignedField.no_empty_fn : AssignedField → Bool
  | .requiredValue _ _ v => v.no_empty_fn
  | .ignoredValue _ _ v => v.no_empty_fn
  | .optionalValue _ _ v => v.no_empty_fn
  | .labelOnly _ => true
  | .spaceBefore f _ => f.no_empty_fn
  | .spaceAfter f _ => f.no_empty_fn
termination_by f => sizeOf f

def fields_no_empty_fn : List AssignedField → Bool
  | [] => true
  | f :: rest => f.no_empty_fn && fields_no_empty_fn rest
termination_by l => sizeOf l

def ImplementsClause.no_empty_fn : ImplementsClause → Bool
  | .mk _ abilities => list_no_empty_fn abilities
termination_by c => sizeOf c

def clauses_no_empty_fn : List ImplementsClause → Bool
  | [] => true
  | c :: rest => c.no_empty_fn && clauses_no_empty_fn rest
termination_by l => sizeOf l

end

mutual

/-- Every lifted annotation embedded in a lowered node satisfies
no_empty_fn. -/
def node_wf : Node → Bool
  | .literal _ => true
  | .sequence first _ rest => node_wf first && sp_rest_wf rest
  | .commaSequence _ _ first rest => node_wf first && items_wf rest
  | .delimitedSequence _ _ items _ => ditems_wf items
  | .typeAnn ann => ann.no_empty_fn
termination_by n => sizeOf n

def sp_rest_wf : List (Sp × Node) → Bool
  | [] => true
  | (_, n) :: rest => node_wf n && sp_rest_wf rest
termination_by l => sizeOf l

def items_wf : List Item → Bool
  | [] => true
  | .mk _ _ _ _ n :: rest => node_wf n && items_wf rest
termination_by l => sizeOf l

def ditems_wf : List DelimitedItem → Bool
  | [] => true
  | .mk _ _ _ n _ :: rest => node_wf n && ditems_wf rest
termination_by l => sizeOf l

end

/-- Claim C2's first multiline source: the node itself carries a non-empty
leading or trailing spacing run (a wrapper variant with a non-empty
run). -/
def carries_run : TypeAnn → Bool
  | .spaceBefore _ sp => !sp.isEmpty
  | .spaceAfter _ sp => !sp.isEmpty
  | _ => false

/-- Claim C2's second multiline source: some strict child of the node is
multiline, judged by each child's own multiline predicate (annotation
children, collection items, the extension variable, and the
implements clauses of a where-clause). -/
def child_multiline : TypeAnn → Bool
  | .spaceBefore inner _ => inner.is_multiline
  | .spaceAfter inner _ => inner.is_multiline
  | .function args _ res => args.any TypeAnn.is_multiline || res.is_multiline
  | .apply _ _ args => args.any TypeAnn.is_multiline
  | .asType inner _ _ => inner.is_multiline
  | .whereAnn ann clauses =>
    ann.is_multiline || clauses.any ImplementsClause.is_multiline
  | .tuple elems _ ext =>
    elems.any TypeAnn.is_multiline ||
      (match ext with | some e => e.is_multiline | none => false)
  | .record fields _ ext =>
    fields.any AssignedField.is_multiline ||
      (match ext with | some e => e.is_multiline | none => false)
  | .tagUnion tags _ ext =>
    tags.any Tag.is_multiline ||
      (match ext with | some e => e.is_multiline | none => false)
  | _ => false

/-- Claim C2's third multiline source: the node is a bracketed collection
whose own final comment run is non-empty. -/
def bracketed_final_nonempty : TypeAnn → Bool
  | .tuple _ final _ => !final.isEmpty
  | .record _ final _ => !final.isEmpty
  | .tagUnion _ final _ => !final.isEmpty
  | _ => false

/-- The parser's collaborator contract (spec section 6) at the root node:
a wrapper variant never holds an empty spacing run. -/
def top_run_nonempty : TypeAnn → Bool
  | .spaceBefore _ sp => !sp.isEmpty
  | .spaceAfter _ sp => !sp.isEmpty
  | _ => true

theorem collapse_head? (l : List CommentOrNewline) : (collapse l).head? = l.head? := by
  match l with
  | [] => simp [collapse]
  | .newline :: r => simp [collapse]
  | .lineComment t :: r => simp [collapse]
  | .docComment t :: r => simp [collapse]

theorem dropWhile_head_not (p : α → Bool) (l : List α) :
    ∀ c, (l.dropWhile p).head? = some c → p c = false := by
  induction l with
  | nil => simp
  | cons a t ih =>
    intro c hc
    rw [List.dropWhile_cons] at hc
    by_cases hp : p a
    · simp [hp] at hc
      exact ih c hc
    · simp [hp] at hc
      subst hc
      simpa using hp

theorem dropWhile_of_head_not (p : α → Bool) (l : List α)
    (h : ∀ c, l.head? = some c → p c = false) : l.dropWhile p = l := by
  match l with
  | [] => rfl
  | a :: t =>
    have := h a (by simp)
    simp [List.dropWhile_cons, this]

theorem collapse_idem (l : List CommentOrNewline) :
    collapse (collapse l) = collapse l := by
  induction l using collapse.induct with
  | case1 => simp [collapse]
  | case2 rest ih =>
    simp only [collapse]
    congr 1
    rw [dropWhile_of_head_not]
    · exact ih
    · intro c hc
      rw [collapse_head?] at hc
      exact dropWhile_head_not _ _ c hc
  | case3 t rest ih => simp [collapse, ih]
  | case4 t rest ih => simp [collapse, ih]

theorem all_dropWhile_self (p : α → Bool) (l : List α) :
    (l.dropWhile p).all p = l.all p := by
  induction l with
  | nil => rfl
  | cons a t ih =>
    rw [List.dropWhile_cons]
    by_cases hp : p a <;> simp [hp, ih]

theorem collapse_all_newline (l : List CommentOrNewline) :
    (collapse l).all CommentOrNewline.is_newline = l.all CommentOrNewline.is_newline := by
  induction l using collapse.induct with
  | case1 => simp [collapse]
  | case2 rest ih =>
    simp only [collapse, List.all_cons]
    rw [ih, all_dropWhile_self]
  | case3 t rest ih => simp [collapse, CommentOrNewline.is_newline]
  | case4 t rest ih => simp [collapse, CommentOrNewline.is_newline]

/-- The invariant of runs produced by the spec's conservative merge:
empty, or holding a comment with no two adjacent blank-line markers. -/
def sp_run (x : List CommentOrNewline) : Prop :=
  x = [] ∨ (x.all CommentOrNewline.is_newline = false ∧ collapse x = x)

theorem sp_run_nil : sp_run [] := Or.inl rfl

theorem merge_sc_nil_left (x : List CommentOrNewline) (h : sp_run x) :
    merge_spaces_conservative [] x = x := by
  rcases h with h | ⟨h1, h2⟩
  · subst h
    simp [merge_spaces_conservative]
  · simp [merge_spaces_conservative, h1, h2]

theorem merge_sc_nil_right (x : List CommentOrNewline) (h : sp_run x) :
    merge_spaces_conservative x [] = x := by
  rcases h with h | ⟨h1, h2⟩
  · subst h
    simp [merge_spaces_conservative]
  · simp [merge_spaces_conservative, h1, h2]

theorem sp_run_merge_sc (a b : List CommentOrNewline) :
    sp_run (merge_spaces_conservative a b) := by
  rw [merge_spaces_conservative]
  split
  · exact sp_run_nil
  · right
    constructor
    · rw [collapse_all_newline]
      rename_i h
      simp only [Bool.not_eq_true] at h
      exact h
    · exact collapse_idem _

-- C4 groundwork
theorem takeWhile_replicate_append (n : Nat) (rest : List CommentOrNewline)
    (h : ∀ c, rest.head? = some c → c.is_newline = false) :
    ((List.replicate n CommentOrNewline.newline ++ rest).takeWhile
      CommentOrNewline.is_newline) = List.replicate n CommentOrNewline.newline := by
  induction n with
  | zero =>
    simp only [List.replicate, List.nil_append]
    match rest, h with
    | [], _ => rfl
    | c :: t, h =>
      have := h c (by simp)
      simp [List.takeWhile_cons, this]
  | succ n ih =>
    simp only [List.replicate, List.cons_append, List.takeWhile_cons,
      CommentOrNewline.is_newline]
    rw [ih]
    simp

theorem c4_drop (n : Nat) (rest : List CommentOrNewline) (h : 2 ≤ n) :
    (List.replicate n CommentOrNewline.newline ++ rest).drop (n - 1)
      = CommentOrNewline.newline :: rest := by
  have hlen : (List.replicate n CommentOrNewline.newline).length = n := by simp
  rw [List.drop_append_of_le_length (by omega)]
  have : List.replicate n CommentOrNewline.newline
      = List.replicate (n - 1) CommentOrNewline.newline
        ++ List.replicate 1 CommentOrNewline.newline := by
    rw [← List.replicate_add]
    congr 1
    omega
  rw [this, List.drop_append_of_le_length (by simp), List.drop_replicate]
  simp

theorem takeWhile_of_all (p : α → Bool) (l : List α) (h : l.all p = true) :
    l.takeWhile p = l := by
  induction l with
  | nil => rfl
  | cons a t ih =>
    simp only [List.all_cons, Bool.and_eq_true] at h
    simp [List.takeWhile_cons, h.1, ih h.2]

theorem all_of_takeWhile_length (p : α → Bool) (l : List α)
    (h : (l.takeWhile p).length = l.length) : l.all p = true := by
  induction l with
  | nil => rfl
  | cons a t ih =>
    rw [List.takeWhile_cons] at h
    by_cases hp : p a
    · simp only [hp, if_true, List.length_cons, Nat.succ_inj] at h
      simp [hp, ih h]
    · simp [hp] at h
  
theorem all_takeWhile (p : α → Bool) (l : List α) : (l.takeWhile p).all p = true := by
  induction l with
  | nil => rfl
  | cons a t ih =>
    rw [List.takeWhile_cons]
    by_cases hp : p a <;> simp [hp, ih]

theorem comments_of_all_newline (l : List CommentOrNewline)
    (h : l.all CommentOrNewline.is_newline = true) : comments_of l = [] := by
  rw [comments_of, List.filter_eq_nil_iff]
  intro c hc
  simp only [List.all_eq_true] at h
  simp [h c hc]

theorem remove_trailing_all_newline (sp : List CommentOrNewline)
    (hne : sp ≠ []) (h : sp.all CommentOrNewline.is_newline = true) :
    remove_trailing_blank_lines sp = [.newline] := by
  rw [remove_trailing_blank_lines]
  have htw : sp.reverse.takeWhile CommentOrNewline.is_newline = sp.reverse :=
    takeWhile_of_all _ _ (by simpa using h)
  rw [htw]
  simp only [List.length_reverse]
  have hlen : 1 ≤ sp.length := by
    cases sp
    · simp at hne
    · simp
  rw [if_pos ⟨trivial, hlen⟩]
  match sp, h with
  | .newline :: t, _ => simp
  | .lineComment s :: t, h => simp [CommentOrNewline.is_newline] at h
  | .docComment s :: t, h => simp [CommentOrNewline.is_newline] at h

theorem remove_trailing_has_comment (sp : List CommentOrNewline)
    (h : sp.all CommentOrNewline.is_newline = false) :
    ∃ t, sp = remove_trailing_blank_lines sp ++ t
      ∧ t.all CommentOrNewline.is_newline = true
      ∧ comments_of (remove_trailing_blank_lines sp) = comments_of sp := by
  rw [remove_trailing_blank_lines]
  set r := sp.reverse with hr
  set tw := r.takeWhile CommentOrNewline.is_newline with htw
  set dw := r.dropWhile CommentOrNewline.is_newline with hdw
  have hsplit : tw ++ dw = r := by
    rw [htw, hdw]
    exact List.takeWhile_append_dropWhile _ _
  have hchomp : tw.length ≠ sp.length := by
    intro heq
    have : r.all CommentOrNewline.is_newline = true := by
      apply all_of_takeWhile_length
      rw [← htw, heq, hr]
      simp
    rw [hr, List.all_reverse] at this
    rw [this] at h
    exact absurd h (by simp)
  rw [if_neg (by simp [hchomp])]
  have hsp : sp = dw.reverse ++ tw.reverse := by
    rw [← List.reverse_append, hsplit, hr, List.reverse_reverse]
  have hlen : sp.length - tw.length = dw.length := by
    have : sp.length = tw.length + dw.length := by
      rw [← List.length_append, hsplit, hr, List.length_reverse]
    omega
  have htake : sp.take (sp.length - tw.length) = dw.reverse := by
    rw [hlen, hsp, List.take_left']
    simp
  have htwall : tw.reverse.all CommentOrNewline.is_newline = true := by
    rw [List.all_reverse]
    exact all_takeWhile _ _
  refine ⟨tw.reverse, ?_, htwall, ?_⟩
  · rw [htake, ← hsp]
  · rw [htake]
    conv_rhs => rw [hsp]
    rw [comments_of, comments_of, List.filter_append]
    have : comments_of tw.reverse = [] := comments_of_all_newline _ htwall
    rw [comments_of] at this
    rw [this, List.append_nil]

/-- C3: when a lowered collection's trailing run (the last item's trailing
run merged with the collection's final comments) consists entirely of
blank-line markers, it collapses to exactly one marker; otherwise its
comments are kept verbatim, in order, with only an all-blank suffix
removed; and collection_to_node applies exactly this squash to exactly
that merged run. -/
theorem c3_trailing_blank_collapse (sp : List CommentOrNewline) :
    (sp ≠ [] → sp.all CommentOrNewline.is_newline = true →
      remove_trailing_blank_lines sp = [.newline]) ∧
    (sp.all CommentOrNewline.is_newline = false →
      ∃ t, sp = remove_trailing_blank_lines sp ++ t
        ∧ t.all CommentOrNewline.is_newline = true
        ∧ comments_of (remove_trailing_blank_lines sp) = comments_of sp) ∧
    (∀ (braces : Braces) (sba : Bool) (lowered : List NodeInfo)
        (final : List CommentOrNewline),
      ∃ items multiline,
        collection_to_node braces sba lowered final =
          .delimitedSequence braces
            ⟨!lowered.isEmpty && sba, multiline,
             remove_trailing_blank_lines (merge_spaces_conservative
               (collect_delimited sba true [] lowered).2.1 final)⟩
            items multiline) := by
  refine ⟨remove_trailing_all_newline sp, remove_trailing_has_comment sp, ?_⟩
  intro braces sba lowered final
  rw [collection_to_node]
  exact ⟨_, _, rfl⟩

theorem c3_witness :
    remove_trailing_blank_lines
        [CommentOrNewline.newline, CommentOrNewline.newline] = [.newline] ∧
    ∃ t, [CommentOrNewline.lineComment "x", CommentOrNewline.newline]
          = remove_trailing_blank_lines
              [CommentOrNewline.lineComment "x", CommentOrNewline.newline] ++ t
        ∧ t.all CommentOrNewline.is_newline = true
        ∧ comments_of (remove_trailing_blank_lines
            [CommentOrNewline.lineComment "x", CommentOrNewline.newline])
          = comments_of [CommentOrNewline.lineComment "x", CommentOrNewline.newline] :=
  ⟨(c3_trailing_blank_collapse _).1 (by simp) (by simp [CommentOrNewline.is_newline]),
   (c3_trailing_blank_collapse _).2.1 (by simp [CommentOrNewline.is_newline])⟩

/-- C4: a leading prefix of two or more blank-line markers on the first
item's leading run is squashed so exactly one marker of it survives; a
prefix of zero or one markers is left unchanged; and collection_to_node
applies exactly this squash to the first item's leading run. -/
theorem c4_leading_blank_squash (n : Nat) (rest : List CommentOrNewline)
    (h : ∀ c, rest.head? = some c → c.is_newline = false) :
    (2 ≤ n → remove_leading_blank_lines
        (List.replicate n CommentOrNewline.newline ++ rest)
          = .newline :: rest) ∧
    (n ≤ 1 → remove_leading_blank_lines
        (List.replicate n CommentOrNewline.newline ++ rest)
          = List.replicate n CommentOrNewline.newline ++ rest) ∧
    (∀ (sba : Bool) (la : List CommentOrNewline) (ni : NodeInfo)
        (tl : List NodeInfo),
      ((collect_delimited sba true la (ni :: tl)).1.head?.map DelimitedItem.before)
        = some (remove_leading_blank_lines ni.before)) := by
  have hchomp :
      ((List.replicate n CommentOrNewline.newline ++ rest).takeWhile
        CommentOrNewline.is_newline).length = n := by
    rw [takeWhile_replicate_append n rest h]
    simp
  refine ⟨?_, ?_, ?_⟩
  · intro hn
    rw [remove_leading_blank_lines]
    simp only [hchomp]
    rw [if_pos (by omega)]
    exact c4_drop n rest hn
  · intro hn
    rw [remove_leading_blank_lines]
    simp only [hchomp]
    rw [if_neg (by omega)]
  · intro sba la ni tl
    rw [collect_delimited]
    simp [DelimitedItem.before]

theorem c4_witness :
    (2 ≤ 3 ∧ remove_leading_blank_lines
        (List.replicate 3 CommentOrNewline.newline ++ [CommentOrNewline.lineComment "x"])
          = .newline :: [CommentOrNewline.lineComment "x"]) ∧
    (1 ≤ 1 ∧ remove_leading_blank_lines
        (List.replicate 1 CommentOrNewline.newline ++ [CommentOrNewline.lineComment "x"])
          = List.replicate 1 CommentOrNewline.newline ++ [CommentOrNewline.lineComment "x"]) :=
  ⟨⟨by omega,
    (c4_leading_blank_squash 3 [CommentOrNewline.lineComment "x"]
      (by intro c hc; simp at hc; subst hc; rfl)).1 (by omega)⟩,
   ⟨le_refl 1,
    (c4_leading_blank_squash 1 [CommentOrNewline.lineComment "x"]
      (by intro c hc; simp at hc; subst hc; rfl)).2.1 (by omega)⟩⟩

/-- C5: parenthesization is a pure (precedence, context) lookup: a
function type in collection or application-argument position always
wraps; an application of zero arguments lowers at term precedence and is
never wrapped in any of the eight contexts; an application with arguments
in application-argument position wraps at the formatter's write_parens
check. -/
theorem c5_parenthesization :
    (∀ parens : Parens, apply_write_parens parens [] = false) ∧
    (∀ (a : TypeAnn) (args : List TypeAnn),
      apply_write_parens .inApply (a :: args) = true) ∧
    (needs_parens .functionType .inCollection = true ∧
     needs_parens .functionType .inApply = true) ∧
    (∀ (module name : String) (parens : Parens) (ni : NodeInfo),
      TypeAnn.toNode (.apply module name []) = some ni →
        ni.prec = .term ∧ ni.add_parens parens = ni) := by
  refine ⟨?_, ?_, ⟨rfl, rfl⟩, ?_⟩
  · intro parens
    simp [apply_write_parens]
  · intro a args
    simp [apply_write_parens]
  · intro module name parens ni hni
    rw [TypeAnn.toNode, to_node_apply_args] at hni
    simp only [Option.some_inj] at hni
    subst hni
    refine ⟨rfl, ?_⟩
    rw [NodeInfo.add_parens, if_neg]
    simp [needs_parens]

theorem c5_witness :
    ∃ ni, TypeAnn.toNode (.apply "" "List" []) = some ni
      ∧ ni.prec = .term ∧ ni.add_parens .inApply = ni := by
  have hto : TypeAnn.toNode (.apply "" "List" [])
      = some ⟨[], .commaSequence false true (.literal "List") [], [], true, .term⟩ := by
    rw [TypeAnn.toNode, to_node_apply_args]
    simp only [String.isEmpty_iff]
    simp
  exact ⟨_, hto, c5_parenthesization.2.2.2 "" "List" .inApply _ hto⟩

/-- C10: an implements clause is never multiline, so a where-clause is
multiline exactly when its base annotation is, and the formatter's
line-break test over the clause list is always false. -/
theorem c10_implements_clause_single_line :
    (∀ c : ImplementsClause, c.is_multiline = false) ∧
    (∀ (ann : TypeAnn) (clauses : List ImplementsClause),
      TypeAnn.is_multiline (.whereAnn ann clauses) = ann.is_multiline) ∧
    (∀ clauses : List ImplementsClause,
      clauses.any ImplementsClause.is_multiline = false) := by
  have h3 : ∀ clauses : List ImplementsClause,
      clauses.any ImplementsClause.is_multiline = false := by
    intro clauses
    simp [ImplementsClause.is_multiline]
  refine ⟨fun _ => rfl, ?_, h3⟩
  intro ann clauses
  rw [TypeAnn.is_multiline, h3]
  simp

/-- C1 fails on the code: lowering a function type drops the trailing
comment run of its first argument (to_node for Function consults
first_node.after only for the multiline flag and never merges it into the
output).  At the annotation "a # c" ... "-> b" the input holds the line
comment "c" and the lowered node holds no comment at all. -/
theorem c1_function_comment_dropped :
    TypeAnn.comments
        (.function [.spaceAfter (.boundVariable "a") [.lineComment "c"]] .pure
          (.boundVariable "b"))
      = [.lineComment "c"] ∧
    (TypeAnn.toNode
        (.function [.spaceAfter (.boundVariable "a") [.lineComment "c"]] .pure
          (.boundVariable "b"))).map NodeInfo.comments
      = some [] := by
  constructor
  · simp [TypeAnn.comments, list_ann_comments, comments_of, CommentOrNewline.is_newline]
  · simp [TypeAnn.toNode, to_node_fn_rest, NodeInfo.add_parens, needs_parens,
      NodeInfo.item, merge_spaces_conservative, collapse, NodeInfo.comments,
      Node.comments, items_comments, comments_of, CommentOrNewline.is_newline,
      Node.is_multiline, sp_rest_comments, Item.set_newline]

/-- The reserved-keyword collision test of the bound-variable formatting
branches in annotation.rs: the text "implements". -/
def is_reserved_type_keyword (v : String) : Bool :=
  v == "implements"

/-- C6: a bound variable whose text collides with the reserved keyword is
wrapped in parentheses in every ambient context, both by the direct
formatter (rendering "(implements)") and by the lowering (which wraps the
literal in a parenthesized node unconditionally). -/
theorem c6_keyword_parens (v : String) (h : is_reserved_type_keyword v = true) :
    (∀ (fuel : Nat) (parens : Parens) (newlines : Newlines) (indent : Nat)
        (buf : Buf),
      fmtF (fuel + 1) parens newlines indent false (.boundVariable v) buf
        = some ((buf.indent indent) ++ "(implements)")) ∧
    TypeAnn.toNode (.boundVariable v)
      = some (parens_around_node (NodeInfo.item (.literal v)) false) := by
  have hv : v = "implements" := by
    rw [is_reserved_type_keyword] at h
    exact eq_of_beq h
  subst hv
  constructor
  · intro fuel parens newlines indent buf
    rw [fmtF, ann_lift_spaces]
    simp
  · rw [TypeAnn.toNode]
    simp

theorem c6_witness :
    is_reserved_type_keyword "implements" = true ∧
    fmtF 1 .notNeeded .no 0 false (.boundVariable "implements") ""
      = some ((Buf.indent "" 0) ++ "(implements)") ∧
    TypeAnn.toNode (.boundVariable "implements")
      = some (parens_around_node (NodeInfo.item (.literal "implements")) false) :=
  ⟨rfl,
   (c6_keyword_parens "implements" rfl).1 0 .notNeeded .no 0 "",
   (c6_keyword_parens "implements" rfl).2⟩

theorem any_ann_multiline_eq (l : List TypeAnn) :
    any_ann_multiline l = l.any TypeAnn.is_multiline := by
  induction l with
  | nil => simp [any_ann_multiline]
  | cons a t ih => simp [any_ann_multiline, ih]

theorem any_tag_multiline_eq (l : List Tag) :
    any_tag_multiline l = l.any Tag.is_multiline := by
  induction l with
  | nil => simp [any_tag_multiline]
  | cons a t ih => simp [any_tag_multiline, ih]

theorem any_field_multiline_eq (l : List AssignedField) :
    any_field_multiline l = l.any AssignedField.is_multiline := by
  induction l with
  | nil => simp [any_field_multiline]
  | cons a t ih => simp [any_field_multiline, ih]

/-- C2: under the parser contract that wrapper variants hold non-empty
runs, a type annotation is multiline exactly when it carries a non-empty
leading or trailing spacing run, or some strict child of it is multiline,
or it is a bracketed collection whose own final comment run is non-empty.
The predicate is a pure function of the tree: no rendered width appears
anywhere in its definition. -/
theorem c2_multiline_structural (a : TypeAnn) (h : top_run_nonempty a = true) :
    a.is_multiline
      = (carries_run a || child_multiline a || bracketed_final_nonempty a) := by
  match a with
  | .spaceBefore inner sp =>
    rw [top_run_nonempty] at h
    simp only [TypeAnn.is_multiline, carries_run, child_multiline,
      bracketed_final_nonempty]
    rw [h]
    simp
  | .spaceAfter inner sp =>
    rw [top_run_nonempty] at h
    simp only [TypeAnn.is_multiline, carries_run, child_multiline,
      bracketed_final_nonempty]
    rw [h]
    simp
  | .wildcard =>
    simp [TypeAnn.is_multiline, carries_run, child_multiline, bracketed_final_nonempty]
  | .inferred =>
    simp [TypeAnn.is_multiline, carries_run, child_multiline, bracketed_final_nonempty]
  | .boundVariable v =>
    simp [TypeAnn.is_multiline, carries_run, child_multiline, bracketed_final_nonempty]
  | .malformed t =>
    simp [TypeAnn.is_multiline, carries_run, child_multiline, bracketed_final_nonempty]
  | .function args arrow res =>
    simp only [TypeAnn.is_multiline, carries_run, child_multiline,
      bracketed_final_nonempty]
    rw [any_ann_multiline_eq]
    cases res.is_multiline <;> cases args.any TypeAnn.is_multiline <;> simp
  | .apply m n args =>
    simp only [TypeAnn.is_multiline, carries_run, child_multiline,
      bracketed_final_nonempty]
    rw [any_ann_multiline_eq]
    cases args.any TypeAnn.is_multiline <;> simp
  | .asType inner sp header =>
    simp only [TypeAnn.is_multiline, carries_run, child_multiline,
      bracketed_final_nonempty]
    cases inner.is_multiline <;> simp
  | .whereAnn ann clauses =>
    simp only [TypeAnn.is_multiline, carries_run, child_multiline,
      bracketed_final_nonempty]
    cases ann.is_multiline <;> cases clauses.any ImplementsClause.is_multiline <;> simp
  | .tuple elems final ext =>
    cases ext with
    | none =>
      rw [TypeAnn.is_multiline]
      simp only [carries_run, child_multiline, bracketed_final_nonempty]
      rw [any_ann_multiline_eq]
      cases elems.any TypeAnn.is_multiline <;> cases final.isEmpty <;> simp
    | some e =>
      rw [TypeAnn.is_multiline]
      simp only [carries_run, child_multiline, bracketed_final_nonempty]
      rw [any_ann_multiline_eq]
      cases e.is_multiline <;> cases elems.any TypeAnn.is_multiline <;>
        cases final.isEmpty <;> simp
  | .record fields final ext =>
    cases ext with
    | none =>
      rw [TypeAnn.is_multiline]
      simp only [carries_run, child_multiline, bracketed_final_nonempty]
      rw [any_field_multiline_eq]
      cases fields.any AssignedField.is_multiline <;> cases final.isEmpty <;> simp
    | some e =>
      rw [TypeAnn.is_multiline]
      simp only [carries_run, child_multiline, bracketed_final_nonempty]
      rw [any_field_multiline_eq]
      cases e.is_multiline <;> cases fields.any AssignedField.is_multiline <;>
        cases final.isEmpty <;> simp
  | .tagUnion tags final ext =>
    cases ext with
    | none =>
      rw [TypeAnn.is_multiline]
      simp only [carries_run, child_multiline, bracketed_final_nonempty]
      rw [any_tag_multiline_eq]
      cases tags.any Tag.is_multiline <;> cases final.isEmpty <;> simp
    | some e =>
      rw [TypeAnn.is_multiline]
      simp only [carries_run, child_multiline, bracketed_final_nonempty]
      rw [any_tag_multiline_eq]
      cases e.is_multiline <;> cases tags.any Tag.is_multiline <;>
        cases final.isEmpty <;> simp

theorem c2_witness :
    (top_run_nonempty (.spaceBefore (.boundVariable "x") [.lineComment "c"]) = true
      ∧ TypeAnn.is_multiline (.spaceBefore (.boundVariable "x") [.lineComment "c"])
        = (carries_run (.spaceBefore (.boundVariable "x") [.lineComment "c"])
            || child_multiline (.spaceBefore (.boundVariable "x") [.lineComment "c"])
            || bracketed_final_nonempty
                (.spaceBefore (.boundVariable "x") [.lineComment "c"]))) ∧
    (top_run_nonempty (.tuple [] [.lineComment "f"] none) = true
      ∧ TypeAnn.is_multiline (.tuple [] [.lineComment "f"] none)
        = (carries_run (.tuple [] [.lineComment "f"] none)
            || child_multiline (.tuple [] [.lineComment "f"] none)
            || bracketed_final_nonempty (.tuple [] [.lineComment "f"] none))) :=
  ⟨⟨rfl, c2_multiline_structural _ rfl⟩, ⟨rfl, c2_multiline_structural _ rfl⟩⟩

theorem no_empty_fn_maybe_before (a : TypeAnn) (sp : List CommentOrNewline) :
    (a.maybe_before sp).no_empty_fn = a.no_empty_fn := by
  rw [TypeAnn.maybe_before]
  split
  · rfl
  · simp [TypeAnn.no_empty_fn]

theorem no_empty_fn_maybe_after (a : TypeAnn) (sp : List CommentOrNewline) :
    (a.maybe_after sp).no_empty_fn = a.no_empty_fn := by
  rw [TypeAnn.maybe_after]
  split
  · rfl
  · simp [TypeAnn.no_empty_fn]

theorem no_empty_fn_lower (l : Spaces TypeAnn) :
    (lower l).no_empty_fn = l.item.no_empty_fn := by
  rw [lower]
  split
  · split
    · rfl
    · simp [TypeAnn.no_empty_fn]
  · split
    · simp [TypeAnn.no_empty_fn]
    · simp [TypeAnn.no_empty_fn]

mutual

theorem lift_wf : ∀ a : TypeAnn, a.no_empty_fn = true →
    (ann_lift_spaces a).item.no_empty_fn = true
  | .apply module name args, h => by
    rw [ann_lift_spaces]
    split
    · simpa using h
    · rw [TypeAnn.no_empty_fn] at h ⊢
      exact lift_apply_args_wf args h
  | .function args arrow res, h => by
    rw [ann_lift_spaces]
    rw [TypeAnn.no_empty_fn] at h ⊢
    simp only [Bool.and_eq_true] at h
    obtain ⟨⟨h1, h2⟩, h3⟩ := h
    simp only [Bool.and_eq_true]
    refine ⟨⟨?_, lift_first_arg_wf args h2⟩, ?_⟩
    · match args, h1 with
      | a :: rest, _ =>
        rw [lift_first_arg]
        simp
    · rw [ann_lift_spaces_after, no_empty_fn_maybe_before]
      exact lift_wf res h3
  | .spaceBefore inner sp, h => by
    rw [ann_lift_spaces]
    rw [TypeAnn.no_empty_fn] at h
    exact lift_wf inner h
  | .spaceAfter inner sp, h => by
    rw [ann_lift_spaces]
    rw [TypeAnn.no_empty_fn] at h
    exact lift_wf inner h
  | .tuple elems final ext, h => by
    rw [TypeAnn.no_empty_fn] at h
    simp only [Bool.and_eq_true] at h
    obtain ⟨h1, h2⟩ := h
    cases ext with
    | none =>
      rw [ann_lift_spaces]
      rw [TypeAnn.no_empty_fn]
      simp [h1, opt_no_empty_fn]
    | some e =>
      rw [opt_no_empty_fn] at h2
      rw [ann_lift_spaces]
      rw [TypeAnn.no_empty_fn]
      simp only [Bool.and_eq_true]
      refine ⟨h1, ?_⟩
      rw [opt_no_empty_fn, ann_lift_spaces_after, no_empty_fn_maybe_before]
      exact lift_wf e h2
  | .record fields final ext, h => by
    rw [TypeAnn.no_empty_fn] at h
    simp only [Bool.and_eq_true] at h
    obtain ⟨h1, h2⟩ := h
    cases ext with
    | none =>
      rw [ann_lift_spaces]
      rw [TypeAnn.no_empty_fn]
      simp [h1, opt_no_empty_fn]
    | some e =>
      rw [opt_no_empty_fn] at h2
      rw [ann_lift_spaces]
      rw [TypeAnn.no_empty_fn]
      simp only [Bool.and_eq_true]
      refine ⟨h1, ?_⟩
      rw [opt_no_empty_fn, ann_lift_spaces_after, no_empty_fn_maybe_before]
      exact lift_wf e h2
  | .tagUnion tags final ext, h => by
    rw [TypeAnn.no_empty_fn] at h
    simp only [Bool.and_eq_true] at h
    obtain ⟨h1, h2⟩ := h
    cases ext with
    | none =>
      rw [ann_lift_spaces]
      rw [TypeAnn.no_empty_fn]
      simp [h1, opt_no_empty_fn]
    | some e =>
      rw [opt_no_empty_fn] at h2
      rw [ann_lift_spaces]
      rw [TypeAnn.no_empty_fn]
      simp only [Bool.and_eq_true]
      refine ⟨h1, ?_⟩
      rw [opt_no_empty_fn, ann_lift_spaces_after, no_empty_fn_maybe_before]
      exact lift_wf e h2
  | .boundVariable v, h => by
    rw [ann_lift_spaces]
    exact h
  | .inferred, h => by
    rw [ann_lift_spaces]
    exact h
  | .wildcard, h => by
    rw [ann_lift_spaces]
    exact h
  | .malformed t, h => by
    rw [ann_lift_spaces]
    exact h
  | .whereAnn inner clauses, h => by
    rw [ann_lift_spaces]
    rw [TypeAnn.no_empty_fn] at h ⊢
    simp only [Bool.and_eq_true] at h ⊢
    obtain ⟨h1, h2⟩ := h
    constructor
    · rw [ann_lift_spaces_before, no_empty_fn_maybe_after]
      exact lift_wf inner h1
    · exact lift_last_clause_wf clauses h2
  | .asType inner sp header, h => by
    rw [ann_lift_spaces]
    rw [TypeAnn.no_empty_fn] at h ⊢
    rw [ann_lift_spaces_before, no_empty_fn_maybe_after]
    exact lift_wf inner h
termination_by a => (sizeOf a, 1)

theorem lift_apply_args_wf : ∀ l : List TypeAnn, list_no_empty_fn l = true →
    list_no_empty_fn (lift_apply_args l).1 = true
  | [], _ => by
    rw [lift_apply_args]
    simp [list_no_empty_fn]
  | [last], h => by
    rw [lift_apply_args]
    rw [list_no_empty_fn] at h
    simp only [Bool.and_eq_true] at h
    obtain ⟨h1, _⟩ := h
    have hw := lift_wf last h1
    split
    · simp [list_no_empty_fn, hw]
    · simp [list_no_empty_fn, TypeAnn.no_empty_fn, hw]
  | a :: b :: rest, h => by
    rw [lift_apply_args]
    rw [list_no_empty_fn] at h ⊢
    simp only [Bool.and_eq_true] at h ⊢
    obtain ⟨h1, h2⟩ := h
    constructor
    · rw [no_empty_fn_lower]
      exact lift_wf a h1
    · exact lift_apply_args_wf (b :: rest) h2
termination_by l => (sizeOf l, 1)

theorem lift_first_arg_wf : ∀ l : List TypeAnn, list_no_empty_fn l = true →
    list_no_empty_fn (lift_first_arg l).1 = true
  | [], h => by
    rw [lift_first_arg]
    exact h
  | first :: rest, h => by
    rw [lift_first_arg]
    rw [list_no_empty_fn] at h ⊢
    simp only [Bool.and_eq_true] at h ⊢
    obtain ⟨h1, h2⟩ := h
    refine ⟨?_, h2⟩
    rw [ann_lift_spaces_before, no_empty_fn_maybe_after]
    exact lift_wf first h1
termination_by l => (sizeOf l, 3)

theorem lift_last_ability_wf : ∀ l : List TypeAnn, list_no_empty_fn l = true →
    list_no_empty_fn (lift_last_ability l).1 = true
  | [], h => by
    rw [lift_last_ability]
    exact h
  | [x], h => by
    rw [lift_last_ability]
    rw [list_no_empty_fn] at h ⊢
    simp only [Bool.and_eq_true] at h ⊢
    obtain ⟨h1, h2⟩ := h
    refine ⟨?_, h2⟩
    rw [ann_lift_spaces_after, no_empty_fn_maybe_before]
    exact lift_wf x h1
  | x :: y :: rest, h => by
    rw [lift_last_ability]
    rw [list_no_empty_fn] at h ⊢
    simp only [Bool.and_eq_true] at h ⊢
    obtain ⟨h1, h2⟩ := h
    exact ⟨h1, lift_last_ability_wf (y :: rest) h2⟩
termination_by l => (sizeOf l, 1)

theorem clause_lift_wf : ∀ c : ImplementsClause, c.no_empty_fn = true →
    (implements_clause_lift_spaces_after c).item.no_empty_fn = true
  | .mk var abilities, h => by
    rw [implements_clause_lift_spaces_after]
    rw [ImplementsClause.no_empty_fn] at h ⊢
    exact lift_last_ability_wf abilities h
termination_by c => (sizeOf c, 1)

theorem lift_last_clause_wf : ∀ l : List ImplementsClause,
    clauses_no_empty_fn l = true → clauses_no_empty_fn (lift_last_clause l).1 = true
  | [], h => by
    rw [lift_last_clause]
    exact h
  | [c], h => by
    rw [lift_last_clause]
    rw [clauses_no_empty_fn] at h ⊢
    simp only [Bool.and_eq_true] at h ⊢
    obtain ⟨h1, h2⟩ := h
    exact ⟨clause_lift_wf c h1, h2⟩
  | c :: d :: rest, h => by
    rw [lift_last_clause]
    rw [clauses_no_empty_fn] at h ⊢
    simp only [Bool.and_eq_true] at h ⊢
    obtain ⟨h1, h2⟩ := h
    exact ⟨h1, lift_last_clause_wf (d :: rest) h2⟩
termination_by l => (sizeOf l, 1)

end

theorem items_wf_eq_all (l : List Item) :
    items_wf l = l.all (fun i => node_wf i.node) := by
  induction l with
  | nil => simp [items_wf]
  | cons i rest ih =>
    match i with
    | .mk b c n s nd => simp [items_wf, ih, Item.node]

theorem ditems_wf_eq_all (l : List DelimitedItem) :
    ditems_wf l = l.all (fun i => node_wf i.node) := by
  induction l with
  | nil => simp [ditems_wf]
  | cons i rest ih =>
    match i with
    | .mk b n s nd c => simp [ditems_wf, ih, DelimitedItem.node]

theorem sp_rest_wf_eq_all (l : List (Sp × Node)) :
    sp_rest_wf l = l.all (fun i => node_wf i.2) := by
  induction l with
  | nil => simp [sp_rest_wf]
  | cons i rest ih =>
    match i with
    | (sp, nd) => simp [sp_rest_wf, ih]

/-- All lowered items hold well-formed nodes. -/
def nis_wf (l : List NodeInfo) : Bool :=
  l.all (fun ni => node_wf ni.node)

theorem node_wf_parens_around (ni : NodeInfo) (b : Bool) :
    node_wf (parens_around_node ni b).node = node_wf ni.node := by
  rw [parens_around_node]
  simp [node_wf, ditems_wf]

theorem node_wf_add_parens (ni : NodeInfo) (p : Parens) :
    node_wf (ni.add_parens p).node = node_wf ni.node := by
  rw [NodeInfo.add_parens]
  split
  · exact node_wf_parens_around ni false
  · rfl

theorem node_wf_add_ty_ext (ni : NodeInfo) :
    node_wf (ni.add_ty_ext_parens).node = node_wf ni.node := by
  rw [NodeInfo.add_ty_ext_parens]
  split
  · simp [node_wf, ditems_wf]
  · rfl

theorem collect_delimited_wf (sba : Bool) :
    ∀ (isFirst : Bool) (la : List CommentOrNewline) (lowered : List NodeInfo),
    nis_wf lowered = true →
    ditems_wf (collect_delimited sba isFirst la lowered).1 = true := by
  intro isFirst la lowered
  induction lowered generalizing isFirst la with
  | nil =>
    intro _
    rw [collect_delimited]
    simp [ditems_wf]
  | cons ni rest ih =>
    intro h
    rw [nis_wf, List.all_cons, Bool.and_eq_true] at h
    rw [collect_delimited, ditems_wf]
    simp only [Bool.and_eq_true]
    exact ⟨h.1, ih false ni.after h.2⟩

theorem collection_to_node_wf (braces : Braces) (sba : Bool)
    (lowered : List NodeInfo) (final : List CommentOrNewline)
    (h : nis_wf lowered = true) :
    node_wf (collection_to_node braces sba lowered final) = true := by
  rw [collection_to_node]
  simp only [node_wf]
  have base := collect_delimited_wf sba true [] lowered h
  rw [ditems_wf_eq_all] at base
  split
  · rw [ditems_wf_eq_all, List.all_map]
    have : ∀ d : DelimitedItem, node_wf (DelimitedItem.set_newline d).node
        = node_wf d.node := by
      intro d
      match d with
      | .mk b n s nd c => rfl
    simpa [Function.comp, this] using base
  · split
    · rw [ditems_wf_eq_all]
      exact base
    · rename_i lastItem revInit heq
      rw [ditems_wf_eq_all, List.all_reverse, List.all_cons]
      have hrev : ((collect_delimited sba true [] lowered).1.reverse).all
          (fun i => node_wf i.node) = true := by
        rw [List.all_reverse]
        exact base
      rw [heq, List.all_cons] at hrev
      simp only [Bool.and_eq_true] at hrev
      simp only [Bool.and_eq_true]
      refine ⟨?_, hrev.2⟩
      have : node_wf (DelimitedItem.unset_comma lastItem).node
          = node_wf lastItem.node := by
        match lastItem with
        | .mk b n s nd c => rfl
      rw [this]
      exact hrev.1

theorem pattern_toNode_node_wf (p : Pattern) :
    node_wf p.toNode.node = true := by
  induction p with
  | ident n => simp [Pattern.toNode, NodeInfo.item, node_wf]
  | spaceBefore inner sp ih => simpa [Pattern.toNode] using ih
  | spaceAfter inner sp ih => simpa [Pattern.toNode] using ih

theorem header_vars_node_wf (l : List Pattern) :
    ∀ la, sp_rest_wf (to_node_header_vars la l).1 = true := by
  induction l with
  | nil =>
    intro la
    rw [to_node_header_vars]
    simp [sp_rest_wf]
  | cons p rest ih =>
    intro la
    rw [to_node_header_vars, sp_rest_wf]
    simp only [Bool.and_eq_true]
    exact ⟨pattern_toNode_node_wf p, ih _⟩

theorem header_toNode_node_wf (h : TypeHeader) :
    node_wf h.toNode.node = true := by
  rw [TypeHeader.toNode]
  split
  · simp [NodeInfo.item, node_wf]
  · simp only [node_wf, Bool.and_eq_true]
    exact ⟨trivial, header_vars_node_wf h.vars []⟩

/-- Well-formedness of an optional lowered extension. -/
def opt_ni_wf : Option NodeInfo → Bool
  | none => true
  | some ni => node_wf ni.node

theorem maybe_add_ext_wf (delim : Node) (ext : Option NodeInfo)
    (h1 : node_wf delim = true) (h2 : opt_ni_wf ext = true) :
    node_wf (maybe_add_ext delim ext).node = true := by
  match ext with
  | none => exact h1
  | some e0 =>
    rw [opt_ni_wf] at h2
    rw [maybe_add_ext]
    simp only [node_wf, sp_rest_wf, Bool.and_eq_true]
    exact ⟨h1, ⟨by rw [node_wf_add_ty_ext]; exact h2, trivial⟩⟩

theorem item_set_newline_node (i : Item) : (Item.set_newline i).node = i.node := by
  match i with
  | .mk b c n s nd => rfl

theorem items_wf_map_set_newline (l : List Item) :
    items_wf (l.map Item.set_newline) = items_wf l := by
  rw [items_wf_eq_all, items_wf_eq_all, List.all_map]
  congr 1
  funext i
  simp [Function.comp, item_set_newline_node]

theorem items_wf_append (a b : List Item) :
    items_wf (a ++ b) = (items_wf a && items_wf b) := by
  rw [items_wf_eq_all, items_wf_eq_all, items_wf_eq_all, List.all_append]

mutual

theorem toNode_wf : ∀ a : TypeAnn, a.no_empty_fn = true →
    ∃ ni, a.toNode = some ni ∧ node_wf ni.node = true
  | .apply module name args, h => by
    rw [TypeAnn.no_empty_fn] at h
    obtain ⟨items, la, heq, hwf⟩ := to_node_apply_args_wf args [] h
    simp only [TypeAnn.toNode, heq]
    refine ⟨_, rfl, ?_⟩
    rw [node_wf]
    simp only [Bool.and_eq_true]
    exact ⟨by simp [node_wf], hwf⟩
  | .spaceBefore inner sp, h => by
    rw [TypeAnn.no_empty_fn] at h
    obtain ⟨ni, heq, hwf⟩ := toNode_wf inner h
    simp only [TypeAnn.toNode, heq]
    exact ⟨_, rfl, hwf⟩
  | .spaceAfter inner sp, h => by
    rw [TypeAnn.no_empty_fn] at h
    obtain ⟨ni, heq, hwf⟩ := toNode_wf inner h
    simp only [TypeAnn.toNode, heq]
    exact ⟨_, rfl, hwf⟩
  | .function args arrow res, h => by
    rw [TypeAnn.no_empty_fn] at h
    simp only [Bool.and_eq_true] at h
    obtain ⟨⟨h1, h2⟩, h3⟩ := h
    cases args with
    | nil => simp at h1
    | cons first rest =>
      rw [list_no_empty_fn] at h2
      simp only [Bool.and_eq_true] at h2
      obtain ⟨hf, hr⟩ := h2
      obtain ⟨fn0, hfeq, hfwf⟩ := toNode_wf first hf
      obtain ⟨restItems, la, ml, hreq, hrwf⟩ := to_node_fn_rest_wf rest [] hr
      obtain ⟨rn0, hrneq, hrnwf⟩ := toNode_wf res h3
      cases arrow
      all_goals
        simp only [TypeAnn.toNode, hfeq, hreq, hrneq]
        refine ⟨_, rfl, ?_⟩
        rw [node_wf]
        simp only [Bool.and_eq_true]
        constructor
        · rw [node_wf_add_parens]
          exact hfwf
        · rw [items_wf_append]
          simp only [Bool.and_eq_true]
          constructor
          · split
            · rw [items_wf_map_set_newline]
              exact hrwf
            · exact hrwf
          · rw [items_wf, items_wf, items_wf]
            simp only [Bool.and_eq_true]
            refine ⟨by simp [node_wf], by rw [node_wf_add_parens]; exact hrnwf, trivial⟩
  | .asType left sp header, h => by
    rw [TypeAnn.no_empty_fn] at h
    obtain ⟨l0, hleq, hlwf⟩ := toNode_wf left h
    simp only [TypeAnn.toNode, hleq]
    refine ⟨_, rfl, ?_⟩
    rw [node_wf]
    simp only [Bool.and_eq_true]
    constructor
    · rw [node_wf_add_parens]
      exact hlwf
    · rw [sp_rest_wf, sp_rest_wf, sp_rest_wf]
      simp only [Bool.and_eq_true]
      refine ⟨by simp [node_wf], ?_, trivial⟩
      rw [node_wf_add_parens]
      exact header_toNode_node_wf header
  | .boundVariable v, h => by
    rw [TypeAnn.toNode]
    refine ⟨_, rfl, ?_⟩
    split
    · rw [node_wf_parens_around]
      simp [NodeInfo.item, node_wf]
    · simp [NodeInfo.item, node_wf]
  | .inferred, h => by
    rw [TypeAnn.toNode]
    exact ⟨_, rfl, by simp [NodeInfo.item, node_wf]⟩
  | .wildcard, h => by
    rw [TypeAnn.toNode]
    exact ⟨_, rfl, by simp [NodeInfo.item, node_wf]⟩
  | .malformed t, h => by
    rw [TypeAnn.toNode]
    exact ⟨_, rfl, by simp [NodeInfo.item, node_wf]⟩
  | .record fields final ext, h => by
    rw [TypeAnn.no_empty_fn] at h
    simp only [Bool.and_eq_true] at h
    obtain ⟨h1, h2⟩ := h
    obtain ⟨nis, hneq, hnwf⟩ := to_node_fields_wf fields h1
    obtain ⟨extOpt, hoeq, howf⟩ := to_node_opt_wf ext h2
    simp only [TypeAnn.toNode, hneq, hoeq]
    refine ⟨_, rfl, ?_⟩
    exact maybe_add_ext_wf _ _ (collection_to_node_wf _ _ _ _ hnwf) howf
  | .tagUnion tags final ext, h => by
    rw [TypeAnn.no_empty_fn] at h
    simp only [Bool.and_eq_true] at h
    obtain ⟨h1, h2⟩ := h
    obtain ⟨nis, hneq, hnwf⟩ := to_node_tags_wf tags h1
    obtain ⟨extOpt, hoeq, howf⟩ := to_node_opt_wf ext h2
    simp only [TypeAnn.toNode, hneq, hoeq]
    refine ⟨_, rfl, ?_⟩
    exact maybe_add_ext_wf _ _ (collection_to_node_wf _ _ _ _ hnwf) howf
  | .tuple elems final ext, h => by
    rw [TypeAnn.no_empty_fn] at h
    simp only [Bool.and_eq_true] at h
    obtain ⟨h1, h2⟩ := h
    obtain ⟨nis, hneq, hnwf⟩ := to_node_tuple_elems_wf elems true h1
    obtain ⟨extOpt, hoeq, howf⟩ := to_node_opt_wf ext h2
    simp only [TypeAnn.toNode, hneq, hoeq]
    refine ⟨_, rfl, ?_⟩
    exact maybe_add_ext_wf _ _ (collection_to_node_wf _ _ _ _ hnwf) howf
  | .whereAnn inner clauses, h => by
    rw [TypeAnn.toNode]
    refine ⟨_, rfl, ?_⟩
    rw [node_wf]
    exact lift_wf _ h
termination_by a => (sizeOf a, 1)

theorem to_node_apply_args_wf : ∀ (l : List TypeAnn) (la : List CommentOrNewline),
    list_no_empty_fn l = true →
    ∃ items la2, to_node_apply_args la l = some (items, la2) ∧ items_wf items = true
  | [], la, _ => by
    rw [to_node_apply_args]
    exact ⟨[], la, rfl, by simp [items_wf]⟩
  | a :: rest, la, h => by
    rw [list_no_empty_fn] at h
    simp only [Bool.and_eq_true] at h
    obtain ⟨h1, h2⟩ := h
    obtain ⟨ni, heq, hwf⟩ := toNode_wf a h1
    obtain ⟨items, la2, heq2, hwf2⟩ :=
      to_node_apply_args_wf rest (ni.add_parens .inApply).after h2
    simp only [to_node_apply_args, heq, heq2]
    refine ⟨_, _, rfl, ?_⟩
    rw [items_wf]
    simp only [Bool.and_eq_true]
    exact ⟨by rw [node_wf_add_parens]; exact hwf, hwf2⟩
termination_by l => (sizeOf l, 1)

theorem to_node_fn_rest_wf : ∀ (l : List TypeAnn) (la : List CommentOrNewline),
    list_no_empty_fn l = true →
    ∃ items la2 ml, to_node_fn_rest la l = some (items, la2, ml)
      ∧ items_wf items = true
  | [], la, _ => by
    rw [to_node_fn_rest]
    exact ⟨[], la, false, rfl, by simp [items_wf]⟩
  | a :: rest, la, h => by
    rw [list_no_empty_fn] at h
    simp only [Bool.and_eq_true] at h
    obtain ⟨h1, h2⟩ := h
    obtain ⟨ni, heq, hwf⟩ := toNode_wf a h1
    obtain ⟨items, la2, ml, heq2, hwf2⟩ :=
      to_node_fn_rest_wf rest (ni.add_parens .inFunctionType).after h2
    simp only [to_node_fn_rest, heq, heq2]
    refine ⟨_, _, _, rfl, ?_⟩
    rw [items_wf]
    simp only [Bool.and_eq_true]
    exact ⟨by rw [node_wf_add_parens]; exact hwf, hwf2⟩
termination_by l => (sizeOf l, 1)

theorem to_node_fields_wf : ∀ l : List AssignedField,
    fields_no_empty_fn l = true →
    ∃ nis, to_node_fields l = some nis ∧ nis_wf nis = true
  | [], _ => by
    rw [to_node_fields]
    exact ⟨[], rfl, by simp [nis_wf]⟩
  | f :: rest, h => by
    rw [fields_no_empty_fn] at h
    simp only [Bool.and_eq_true] at h
    obtain ⟨h1, h2⟩ := h
    obtain ⟨ni, heq, hwf⟩ := field_toNode_wf f h1
    obtain ⟨nis, heq2, hwf2⟩ := to_node_fields_wf rest h2
    simp only [to_node_fields, heq, heq2]
    refine ⟨_, rfl, ?_⟩
    rw [nis_wf, List.all_cons]
    simp only [Bool.and_eq_true]
    exact ⟨by rw [node_wf_add_parens]; exact hwf, hwf2⟩
termination_by l => (sizeOf l, 1)

theorem to_node_tags_wf : ∀ l : List Tag,
    tags_no_empty_fn l = true →
    ∃ nis, to_node_tags l = some nis ∧ nis_wf nis = true
  | [], _ => by
    rw [to_node_tags]
    exact ⟨[], rfl, by simp [nis_wf]⟩
  | t :: rest, h => by
    rw [tags_no_empty_fn] at h
    simp only [Bool.and_eq_true] at h
    obtain ⟨h1, h2⟩ := h
    obtain ⟨ni, heq, hwf⟩ := tag_toNode_wf t h1
    obtain ⟨nis, heq2, hwf2⟩ := to_node_tags_wf rest h2
    simp only [to_node_tags, heq, heq2]
    refine ⟨_, rfl, ?_⟩
    rw [nis_wf, List.all_cons]
    simp only [Bool.and_eq_true]
    exact ⟨by rw [node_wf_add_parens]; exact hwf, hwf2⟩
termination_by l => (sizeOf l, 1)

theorem to_node_tuple_elems_wf : ∀ (l : List TypeAnn) (isFirst : Bool),
    list_no_empty_fn l = true →
    ∃ nis, to_node_tuple_elems isFirst l = some nis ∧ nis_wf nis = true
  | [], isFirst, _ => by
    rw [to_node_tuple_elems]
    exact ⟨[], rfl, by simp [nis_wf]⟩
  | e :: rest, isFirst, h => by
    rw [list_no_empty_fn] at h
    simp only [Bool.and_eq_true] at h
    obtain ⟨h1, h2⟩ := h
    obtain ⟨ni, heq, hwf⟩ := toNode_wf e h1
    obtain ⟨nis, heq2, hwf2⟩ := to_node_tuple_elems_wf rest false h2
    simp only [to_node_tuple_elems, heq, heq2]
    refine ⟨_, rfl, ?_⟩
    rw [nis_wf, List.all_cons]
    simp only [Bool.and_eq_true]
    refine ⟨?_, hwf2⟩
    split
    · exact hwf
    · rw [node_wf_add_parens]
      exact hwf
termination_by l => (sizeOf l, 1)

theorem to_node_opt_wf : ∀ o : Option TypeAnn,
    opt_no_empty_fn o = true →
    ∃ extOpt, to_node_opt o = some extOpt ∧ opt_ni_wf extOpt = true
  | none, _ => by
    rw [to_node_opt]
    exact ⟨none, rfl, rfl⟩
  | some a, h => by
    rw [opt_no_empty_fn] at h
    obtain ⟨ni, heq, hwf⟩ := toNode_wf a h
    simp only [to_node_opt, heq]
    exact ⟨some ni, rfl, hwf⟩
termination_by o => (sizeOf o, 1)

theorem tag_toNode_wf : ∀ t : Tag, t.no_empty_fn = true →
    ∃ ni, t.toNode = some ni ∧ node_wf ni.node = true
  | .apply name args, h => by
    rw [Tag.no_empty_fn] at h
    obtain ⟨items, la, heq, hwf⟩ := to_node_tag_args_wf args [] h
    rw [Tag.toNode]
    split
    · exact ⟨_, rfl, by simp [NodeInfo.item, node_wf]⟩
    · rw [heq]
      refine ⟨_, rfl, ?_⟩
      rw [node_wf]
      simp only [Bool.and_eq_true]
      exact ⟨by simp [node_wf], hwf⟩
  | .spaceBefore inner sp, h => by
    rw [Tag.no_empty_fn] at h
    obtain ⟨ni, heq, hwf⟩ := tag_toNode_wf inner h
    simp only [Tag.toNode, heq]
    exact ⟨_, rfl, hwf⟩
  | .spaceAfter inner sp, h => by
    rw [Tag.no_empty_fn] at h
    obtain ⟨ni, heq, hwf⟩ := tag_toNode_wf inner h
    simp only [Tag.toNode, heq]
    exact ⟨_, rfl, hwf⟩
termination_by t => (sizeOf t, 1)

theorem to_node_tag_args_wf : ∀ (l : List TypeAnn) (la : List CommentOrNewline),
    list_no_empty_fn l = true →
    ∃ items la2, to_node_tag_args la l = some (items, la2)
      ∧ sp_rest_wf items = true
  | [], la, _ => by
    rw [to_node_tag_args]
    exact ⟨[], la, rfl, by simp [sp_rest_wf]⟩
  | a :: rest, la, h => by
    rw [list_no_empty_fn] at h
    simp only [Bool.and_eq_true] at h
    obtain ⟨h1, h2⟩ := h
    obtain ⟨ni, heq, hwf⟩ := toNode_wf a h1
    obtain ⟨items, la2, heq2, hwf2⟩ :=
      to_node_tag_args_wf rest (ni.add_parens .inApply).after h2
    simp only [to_node_tag_args, heq, heq2]
    refine ⟨_, _, rfl, ?_⟩
    rw [sp_rest_wf]
    simp only [Bool.and_eq_true]
    exact ⟨by rw [node_wf_add_parens]; exact hwf, hwf2⟩
termination_by l => (sizeOf l, 1)

theorem field_toNode_wf : ∀ f : AssignedField, f.no_empty_fn = true →
    ∃ ni, f.toNode = some ni ∧ node_wf ni.node = true
  | .requiredValue name sp value, h => by
    rw [AssignedField.no_empty_fn] at h
    rw [AssignedField.toNode]
    exact afvtn_wf name sp value ":" h
  | .ignoredValue name sp value, h => by
    rw [AssignedField.no_empty_fn] at h
    rw [AssignedField.toNode]
    exact afvtn_wf ("_" ++ name) sp value ":" h
  | .optionalValue name sp value, h => by
    rw [AssignedField.no_empty_fn] at h
    rw [AssignedField.toNode]
    exact afvtn_wf name sp value "?" h
  | .labelOnly name, h => by
    rw [AssignedField.toNode]
    exact ⟨_, rfl, by simp [node_wf]⟩
  | .spaceBefore inner sp, h => by
    rw [AssignedField.no_empty_fn] at h
    obtain ⟨ni, heq, hwf⟩ := field_toNode_wf inner h
    simp only [AssignedField.toNode, heq]
    exact ⟨_, rfl, hwf⟩
  | .spaceAfter inner sp, h => by
    rw [AssignedField.no_empty_fn] at h
    obtain ⟨ni, heq, hwf⟩ := field_toNode_wf inner h
    simp only [AssignedField.toNode, heq]
    exact ⟨_, rfl, hwf⟩
termination_by f => (sizeOf f, 1)

theorem afvtn_wf : ∀ (name : String) (sp : List CommentOrNewline)
    (value : TypeAnn) (sep : String), value.no_empty_fn = true →
    ∃ ni, assigned_field_value_to_node name sp value sep = some ni
      ∧ node_wf ni.node = true
  | name, sp, value, sep, h => by
    obtain ⟨v, heq, hwf⟩ := toNode_wf value h
    simp only [assigned_field_value_to_node, heq]
    refine ⟨_, rfl, ?_⟩
    rw [node_wf]
    simp only [Bool.and_eq_true]
    refine ⟨by simp [node_wf], ?_⟩
    rw [sp_rest_wf, sp_rest_wf, sp_rest_wf]
    simp only [Bool.and_eq_true]
    exact ⟨by simp [node_wf], hwf, trivial⟩
termination_by name sp value sep => (sizeOf value, 2)

end

/-- C9: lowering a function type with an empty argument list panics (the
expect in the source, modelled as none); under the precondition that every
function type carries at least one argument, lowering always succeeds. -/
theorem c9_function_empty_args :
    (∀ (arrow : FunctionArrow) (res : TypeAnn),
      TypeAnn.toNode (.function [] arrow res) = none) ∧
    (∀ a : TypeAnn, a.no_empty_fn = true → (TypeAnn.toNode a).isSome = true) := by
  constructor
  · intro arrow res
    rw [TypeAnn.toNode]
  · intro a h
    obtain ⟨ni, heq, _⟩ := toNode_wf a h
    rw [heq]
    rfl

theorem c9_witness :
    TypeAnn.no_empty_fn (.function [.boundVariable "a"] .pure (.boundVariable "b"))
        = true ∧
    (TypeAnn.toNode (.function [.boundVariable "a"] .pure (.boundVariable "b"))).isSome
        = true :=
  ⟨by simp [TypeAnn.no_empty_fn, list_no_empty_fn],
   c9_function_empty_args.2 _ (by simp [TypeAnn.no_empty_fn, list_no_empty_fn])⟩

/-- Is the node free of leading/trailing spacing wrappers at the root. -/
def not_wrapper : TypeAnn → Bool
  | .spaceBefore _ _ => false
  | .spaceAfter _ _ => false
  | _ => true

theorem lift_not_wrapper : ∀ a : TypeAnn,
    not_wrapper (ann_lift_spaces a).item = true
  | .apply module name args => by
    rw [ann_lift_spaces]
    split <;> rfl
  | .function args arrow res => by
    rw [ann_lift_spaces]
    rfl
  | .spaceBefore inner sp => by
    rw [ann_lift_spaces]
    exact lift_not_wrapper inner
  | .spaceAfter inner sp => by
    rw [ann_lift_spaces]
    exact lift_not_wrapper inner
  | .tuple elems final ext => by
    cases ext <;> (rw [ann_lift_spaces]; rfl)
  | .record fields final ext => by
    cases ext <;> (rw [ann_lift_spaces]; rfl)
  | .tagUnion tags final ext => by
    cases ext <;> (rw [ann_lift_spaces]; rfl)
  | .boundVariable v => by
    rw [ann_lift_spaces]
    rfl
  | .inferred => by
    rw [ann_lift_spaces]
    rfl
  | .wildcard => by
    rw [ann_lift_spaces]
    rfl
  | .malformed t => by
    rw [ann_lift_spaces]
    rfl
  | .whereAnn inner clauses => by
    rw [ann_lift_spaces]
    rfl
  | .asType inner sp header => by
    rw [ann_lift_spaces]
    rfl
termination_by a => sizeOf a

theorem extract_spaces_wf : ∀ a : TypeAnn, a.no_empty_fn = true →
    (TypeAnn.extract_spaces a).item.no_empty_fn = true
  | .spaceBefore inner sp, h => by
    rw [TypeAnn.no_empty_fn] at h
    rw [TypeAnn.extract_spaces]
    exact extract_spaces_wf inner h
  | .spaceAfter inner sp, h => by
    rw [TypeAnn.no_empty_fn] at h
    rw [TypeAnn.extract_spaces]
    exact extract_spaces_wf inner h
  | .function args arrow res, h => by
    simp only [TypeAnn.extract_spaces]
    exact h
  | .apply m n args, h => by
    simp only [TypeAnn.extract_spaces]
    exact h
  | .boundVariable v, h => by
    simp only [TypeAnn.extract_spaces]
    exact h
  | .asType i sp hd, h => by
    simp only [TypeAnn.extract_spaces]
    exact h
  | .record f fc e, h => by
    simp only [TypeAnn.extract_spaces]
    exact h
  | .tuple el fc e, h => by
    simp only [TypeAnn.extract_spaces]
    exact h
  | .tagUnion t fc e, h => by
    simp only [TypeAnn.extract_spaces]
    exact h
  | .inferred, h => by
    simp only [TypeAnn.extract_spaces]
    exact h
  | .wildcard, h => by
    simp only [TypeAnn.extract_spaces]
    exact h
  | .whereAnn i c, h => by
    simp only [TypeAnn.extract_spaces]
    exact h
  | .malformed t, h => by
    simp only [TypeAnn.extract_spaces]
    exact h

theorem fmt_total : ∀ fuel : Nat,
    (∀ (parens : Parens) (newlines : Newlines) (indent : Nat) (natop : Bool)
        (a : TypeAnn) (buf : Buf), a.no_empty_fn = true →
      (fmtF fuel parens newlines indent natop a buf).isSome = true) ∧
    (∀ (ni : Bool) (ai : Nat) (l : List TypeAnn) (buf : Buf),
        list_no_empty_fn l = true →
      (fmt_apply_args fuel ni ai l buf).isSome = true) ∧
    (∀ (parens : Parens) (newlines : Newlines) (indent : Nat) (isF : Bool)
        (l : List ImplementsClause) (buf : Buf), clauses_no_empty_fn l = true →
      (fmt_where_clauses fuel parens newlines indent isF l buf).isSome = true) ∧
    (∀ (parens : Parens) (newlines : Newlines) (indent : Nat)
        (c : ImplementsClause) (buf : Buf), c.no_empty_fn = true →
      (fmt_clause fuel parens newlines indent c buf).isSome = true) ∧
    (∀ (parens : Parens) (newlines : Newlines) (indent : Nat) (isF : Bool)
        (l : List TypeAnn) (buf : Buf), list_no_empty_fn l = true →
      (fmt_abilities fuel parens newlines indent isF l buf).isSome = true) ∧
    (∀ (node : Node) (indent : Nat) (buf : Buf), node_wf node = true →
      (renderF fuel node indent buf).isSome = true) ∧
    (∀ (indent : Nat) (l : List (Sp × Node)) (buf : Buf), sp_rest_wf l = true →
      (render_sp_rest fuel indent l buf).isSome = true) ∧
    (∀ (indent : Nat) (l : List Item) (buf : Buf), items_wf l = true →
      (render_items fuel indent l buf).isSome = true) ∧
    (∀ (indent : Nat) (l : List DelimitedItem) (buf : Buf), ditems_wf l = true →
      (render_ditems fuel indent l buf).isSome = true) := by
  intro fuel
  induction fuel with
  | zero =>
    refine ⟨?_, ?_, ?_, ?_, ?_, ?_, ?_, ?_, ?_⟩
    · intro p n i na a b _
      rw [fmtF.eq_def]
      rfl
    · intro ni ai l b _
      rw [fmt_apply_args.eq_def]
      rfl
    · intro p n i f l b _
      rw [fmt_where_clauses.eq_def]
      rfl
    · intro p n i c b _
      rw [fmt_clause.eq_def]
      rfl
    · intro p n i f l b _
      rw [fmt_abilities.eq_def]
      rfl
    · intro nd i b _
      rw [renderF.eq_def]
      rfl
    · intro i l b _
      rw [render_sp_rest.eq_def]
      rfl
    · intro i l b _
      rw [render_items.eq_def]
      rfl
    · intro i l b _
      rw [render_ditems.eq_def]
      rfl
  | succ fuel ih =>
    obtain ⟨ihF, ihAA, ihWC, ihCl, ihAb, ihR, ihSR, ihRI, ihRD⟩ := ih
    refine ⟨?_, ?_, ?_, ?_, ?_, ?_, ?_, ?_, ?_⟩
    · -- fmtF
      intro parens newlines indent natop a buf h
      have hwfi := lift_wf a h
      have hnw := lift_not_wrapper a
      cases hitem : (ann_lift_spaces a).item with
      | spaceBefore inner sp =>
        rw [hitem] at hnw
        simp [not_wrapper] at hnw
      | spaceAfter inner sp =>
        rw [hitem] at hnw
        simp [not_wrapper] at hnw
      | apply pkg nm args2 =>
        rw [hitem] at hwfi
        rw [TypeAnn.no_empty_fn] at hwfi
        simp only [fmtF, hitem, Option.isSome_map']
        exact ihAA _ _ _ _ hwfi
      | boundVariable v => simp [fmtF, hitem]
      | wildcard => simp [fmtF, hitem]
      | inferred => simp [fmtF, hitem]
      | malformed t => simp [fmtF, hitem]
      | whereAnn annot clauses =>
        rw [hitem] at hwfi
        rw [TypeAnn.no_empty_fn] at hwfi
        simp only [Bool.and_eq_true] at hwfi
        obtain ⟨h1, h2⟩ := hwfi
        simp only [fmtF, hitem, Option.isSome_map']
        obtain ⟨b3, hb3⟩ := Option.isSome_iff_exists.mp (ihF parens newlines indent false annot _ h1)
        rw [hb3]
        simp only [Option.isSome_map']
        exact ihWC _ _ _ _ _ _ h2
      | function args2 arrow2 res2 =>
        rw [hitem] at hwfi
        obtain ⟨ni, hni, hniwf⟩ := toNode_wf _ hwfi
        simp only [fmtF, hitem, hni, Option.isSome_map']
        refine ihR _ _ _ ?_
        rw [node_wf_add_parens]
        exact hniwf
      | asType inner2 sp2 header2 =>
        rw [hitem] at hwfi
        obtain ⟨ni, hni, hniwf⟩ := toNode_wf _ hwfi
        simp only [fmtF, hitem, hni, Option.isSome_map']
        refine ihR _ _ _ ?_
        rw [node_wf_add_parens]
        exact hniwf
      | record fields2 final2 ext2 =>
        rw [hitem] at hwfi
        obtain ⟨ni, hni, hniwf⟩ := toNode_wf _ hwfi
        simp only [fmtF, hitem, hni, Option.isSome_map']
        refine ihR _ _ _ ?_
        rw [node_wf_add_parens]
        exact hniwf
      | tuple elems2 final2 ext2 =>
        rw [hitem] at hwfi
        obtain ⟨ni, hni, hniwf⟩ := toNode_wf _ hwfi
        simp only [fmtF, hitem, hni, Option.isSome_map']
        refine ihR _ _ _ ?_
        rw [node_wf_add_parens]
        exact hniwf
      | tagUnion tags2 final2 ext2 =>
        rw [hitem] at hwfi
        obtain ⟨ni, hni, hniwf⟩ := toNode_wf _ hwfi
        simp only [fmtF, hitem, hni, Option.isSome_map']
        refine ihR _ _ _ ?_
        rw [node_wf_add_parens]
        exact hniwf
    · -- fmt_apply_args
      intro ni ai l buf h
      cases l with
      | nil => rw [fmt_apply_args]; rfl
      | cons a rest =>
        rw [list_no_empty_fn] at h
        simp only [Bool.and_eq_true] at h
        obtain ⟨h1, h2⟩ := h
        simp only [fmt_apply_args]
        split
        · obtain ⟨b2, hb2⟩ := Option.isSome_iff_exists.mp
            (ihF .inApply .yes ai false (TypeAnn.extract_spaces a).item
              ((fmt_spaces buf (TypeAnn.extract_spaces a).before ai).ensure_newline)
              (extract_spaces_wf a h1))
          rw [hb2]
          exact ihAA _ _ _ _ h2
        · obtain ⟨b2, hb2⟩ := Option.isSome_iff_exists.mp
            (ihF .inApply .no ai false a (buf ++ " ") h1)
          rw [hb2]
          exact ihAA _ _ _ _ h2
    · -- fmt_where_clauses
      intro parens newlines indent isF l buf h
      cases l with
      | nil => rw [fmt_where_clauses]; rfl
      | cons c rest =>
        rw [clauses_no_empty_fn] at h
        simp only [Bool.and_eq_true] at h
        obtain ⟨h1, h2⟩ := h
        rw [fmt_where_clauses]
        obtain ⟨b2, hb2⟩ := Option.isSome_iff_exists.mp
          (ihCl parens newlines indent c _ h1)
        rw [hb2]
        exact ihWC _ _ _ _ _ _ h2
    · -- fmt_clause
      intro parens newlines indent c buf h
      cases c with
      | mk var abilities =>
        rw [ImplementsClause.no_empty_fn] at h
        rw [fmt_clause]
        exact ihAb _ _ _ _ _ _ h
    · -- fmt_abilities
      intro parens newlines indent isF l buf h
      cases l with
      | nil => rw [fmt_abilities]; rfl
      | cons a rest =>
        rw [list_no_empty_fn] at h
        simp only [Bool.and_eq_true] at h
        obtain ⟨h1, h2⟩ := h
        rw [fmt_abilities]
        obtain ⟨b2, hb2⟩ := Option.isSome_iff_exists.mp
          (ihF parens newlines indent false a _ h1)
        rw [hb2]
        exact ihAb _ _ _ _ _ _ h2
    · -- renderF
      intro node indent buf h
      cases node with
      | literal t => rw [renderF]; rfl
      | typeAnn a =>
        rw [node_wf] at h
        rw [renderF]
        exact ihF _ _ _ _ _ _ h
      | sequence first extra rest =>
        rw [node_wf] at h
        simp only [Bool.and_eq_true] at h
        obtain ⟨h1, h2⟩ := h
        rw [renderF]
        obtain ⟨b1, hb1⟩ := Option.isSome_iff_exists.mp (ihR first indent buf h1)
        rw [hb1]
        exact ihSR _ _ _ h2
      | commaSequence ab ir first rest =>
        rw [node_wf] at h
        simp only [Bool.and_eq_true] at h
        obtain ⟨h1, h2⟩ := h
        rw [renderF]
        obtain ⟨b1, hb1⟩ := Option.isSome_iff_exists.mp (ihR first indent buf h1)
        rw [hb1]
        exact ihRI _ _ _ h2
      | delimitedSequence braces after items indentItems =>
        rw [node_wf] at h
        rw [renderF]
        obtain ⟨b2, hb2⟩ := Option.isSome_iff_exists.mp (ihRD _ items _ h)
        rw [hb2]
        rfl
    · -- render_sp_rest
      intro indent l buf h
      cases l with
      | nil => rw [render_sp_rest]; rfl
      | cons i rest =>
        match i with
        | (sp, n) =>
          rw [sp_rest_wf] at h
          simp only [Bool.and_eq_true] at h
          obtain ⟨h1, h2⟩ := h
          rw [render_sp_rest]
          obtain ⟨b3, hb3⟩ := Option.isSome_iff_exists.mp (ihR n indent _ h1)
          rw [hb3]
          exact ihSR _ _ _ h2
    · -- render_items
      intro indent l buf h
      cases l with
      | nil => rw [render_items]; rfl
      | cons i rest =>
        match i with
        | .mk before cb nl spc n =>
          rw [items_wf] at h
          simp only [Bool.and_eq_true] at h
          obtain ⟨h1, h2⟩ := h
          rw [render_items]
          obtain ⟨b4, hb4⟩ := Option.isSome_iff_exists.mp (ihR n indent _ h1)
          rw [hb4]
          exact ihRI _ _ _ h2
    · -- render_ditems
      intro indent l buf h
      cases l with
      | nil => rw [render_ditems]; rfl
      | cons i rest =>
        match i with
        | .mk before nl spc n ca =>
          rw [ditems_wf] at h
          simp only [Bool.and_eq_true] at h
          obtain ⟨h1, h2⟩ := h
          rw [render_ditems]
          obtain ⟨b3, hb3⟩ := Option.isSome_iff_exists.mp (ihR n indent _ h1)
          rw [hb3]
          exact ihRD _ _ _ h2

/-- C8 as claimed is false: formatting a function type with an empty
argument list reaches the lowering panic instead of returning (modelled as
none). -/
theorem c8_counterexample :
    fmtF 1 .notNeeded .no 0 false (.function [] .pure (.boundVariable "a")) ""
      = none := by
  simp [fmtF, ann_lift_spaces, lift_first_arg, ann_lift_spaces_after,
    TypeAnn.maybe_before, TypeAnn.toNode]

/-- C8 amended: for every input node whose function types all have at
least one argument, formatting appends bytes and returns without failing
(none arises only from the panic, never from a recoverable error, at any
fuel); and for every Malformed node the formatter appends exactly the
node's captured raw text, unchanged. -/
theorem c8_total_and_malformed_verbatim :
    (∀ (fuel : Nat) (parens : Parens) (newlines : Newlines) (indent : Nat)
        (natop : Bool) (a : TypeAnn) (buf : Buf), a.no_empty_fn = true →
      (fmtF fuel parens newlines indent natop a buf).isSome = true) ∧
    (∀ (fuel : Nat) (parens : Parens) (newlines : Newlines) (indent : Nat)
        (raw : String) (buf : Buf),
      fmtF (fuel + 1) parens newlines indent false (.malformed raw) buf
        = some ((buf.indent indent) ++ raw)) := by
  constructor
  · intro fuel parens newlines indent natop a buf h
    exact (fmt_total fuel).1 parens newlines indent natop a buf h
  · intro fuel parens newlines indent raw buf
    simp [fmtF, ann_lift_spaces]

theorem c8_witness :
    TypeAnn.no_empty_fn (.malformed "oops") = true ∧
    (fmtF 3 .notNeeded .no 0 false (.malformed "oops") "").isSome = true ∧
    fmtF 3 .notNeeded .no 0 false (.malformed "oops") ""
      = some ((Buf.indent "" 0) ++ "oops") :=
  ⟨by simp [TypeAnn.no_empty_fn],
   c8_total_and_malformed_verbatim.1 3 .notNeeded .no 0 false _ ""
     (by simp [TypeAnn.no_empty_fn]),
   c8_total_and_malformed_verbatim.2 2 .notNeeded .no 0 "oops" ""⟩

theorem merge_sc_nil_nil : merge_spaces_conservative [] [] = [] := by
  simp [merge_spaces_conservative]

theorem lift_maybe_after (i : TypeAnn) (aft : List CommentOrNewline)
    (hi : ann_lift_spaces i = ⟨[], i, []⟩) (ha : sp_run aft) :
    ann_lift_spaces (i.maybe_after aft) = ⟨[], i, aft⟩ := by
  rw [TypeAnn.maybe_after]
  split
  · rename_i he
    rw [hi]
    simp only [List.isEmpty_iff] at he
    rw [he]
  · rw [ann_lift_spaces, hi]
    simp only []
    rw [merge_sc_nil_left aft ha]

theorem lift_maybe_before (i : TypeAnn) (b : List CommentOrNewline)
    (hi : ann_lift_spaces i = ⟨[], i, []⟩) (hb : sp_run b) :
    ann_lift_spaces (i.maybe_before b) = ⟨b, i, []⟩ := by
  rw [TypeAnn.maybe_before]
  split
  · rename_i he
    rw [hi]
    simp only [List.isEmpty_iff] at he
    rw [he]
  · rw [ann_lift_spaces, hi]
    simp only []
    rw [merge_sc_nil_right b hb]

theorem pattern_lift_idem (p : Pattern) :
    pattern_lift_spaces ((pattern_lift_spaces p).item)
        = ⟨[], (pattern_lift_spaces p).item, []⟩
      ∧ sp_run (pattern_lift_spaces p).before
      ∧ sp_run (pattern_lift_spaces p).after := by
  induction p with
  | ident n => exact ⟨rfl, sp_run_nil, sp_run_nil⟩
  | spaceBefore inner sp ih =>
    rw [pattern_lift_spaces]
    exact ⟨ih.1, sp_run_merge_sc _ _, ih.2.2⟩
  | spaceAfter inner sp ih =>
    rw [pattern_lift_spaces]
    exact ⟨ih.1, ih.2.1, sp_run_merge_sc _ _⟩

theorem pattern_lift_maybe_before (i : Pattern) (b : List CommentOrNewline)
    (hi : pattern_lift_spaces i = ⟨[], i, []⟩) (hb : sp_run b) :
    pattern_lift_spaces (i.maybe_before b) = ⟨b, i, []⟩ := by
  rw [Pattern.maybe_before]
  split
  · rename_i he
    rw [hi]
    simp only [List.isEmpty_iff] at he
    rw [he]
  · rw [pattern_lift_spaces, hi]
    simp only []
    rw [merge_sc_nil_right b hb]

theorem pattern_after_idem (p : Pattern) :
    pattern_lift_spaces_after ((pattern_lift_spaces_after p).item)
        = ⟨(pattern_lift_spaces_after p).item, []⟩
      ∧ sp_run (pattern_lift_spaces_after p).after := by
  obtain ⟨h1, h2, h3⟩ := pattern_lift_idem p
  rw [pattern_lift_spaces_after]
  refine ⟨?_, h3⟩
  rw [pattern_lift_spaces_after,
    pattern_lift_maybe_before _ _ h1 h2]

theorem lift_last_var_idem (l : List Pattern) :
    lift_last_var (lift_last_var l).1 = ((lift_last_var l).1, [])
      ∧ sp_run (lift_last_var l).2 := by
  induction l with
  | nil =>
    rw [lift_last_var]
    exact ⟨rfl, sp_run_nil⟩
  | cons x rest ih =>
    cases rest with
    | nil =>
      rw [lift_last_var]
      obtain ⟨h1, h2⟩ := pattern_after_idem x
      refine ⟨?_, h2⟩
      rw [lift_last_var, h1]
    | cons y t =>
      rw [lift_last_var]
      obtain ⟨ih1, ih2⟩ := ih
      refine ⟨?_, ih2⟩
      have hne : (lift_last_var (y :: t)).1 ≠ [] := by
        cases t with
        | nil =>
          rw [lift_last_var]
          simp
        | cons z zs =>
          rw [lift_last_var]
          simp
      match hv : (lift_last_var (y :: t)).1, hne with
      | v :: vs, _ =>
        rw [lift_last_var]
        rw [hv] at ih1
        rw [ih1]

theorem type_head_idem (h : TypeHeader) :
    type_head_lift_spaces_after ((type_head_lift_spaces_after h).item)
        = ⟨(type_head_lift_spaces_after h).item, []⟩
      ∧ sp_run (type_head_lift_spaces_after h).after := by
  obtain ⟨h1, h2⟩ := lift_last_var_idem h.vars
  rw [type_head_lift_spaces_after]
  refine ⟨?_, h2⟩
  rw [type_head_lift_spaces_after]
  simp only []
  rw [h1]

/-- The invariant established by one pass of space lifting: lifting the
lifted item again is the identity with empty runs, and the extracted runs
are conservative-merge-normal. -/
def lift_idem_prop (a : TypeAnn) : Prop :=
  ann_lift_spaces ((ann_lift_spaces a).item) = ⟨[], (ann_lift_spaces a).item, []⟩
    ∧ sp_run (ann_lift_spaces a).before ∧ sp_run (ann_lift_spaces a).after

theorem before_idem_of (a : TypeAnn) (h : lift_idem_prop a) :
    ann_lift_spaces_before ((ann_lift_spaces_before a).item)
      = ⟨[], (ann_lift_spaces_before a).item⟩ := by
  obtain ⟨h1, h2, h3⟩ := h
  simp only [ann_lift_spaces_before]
  rw [lift_maybe_after _ _ h1 h3]

theorem after_idem_of (a : TypeAnn) (h : lift_idem_prop a) :
    ann_lift_spaces_after ((ann_lift_spaces_after a).item)
      = ⟨(ann_lift_spaces_after a).item, []⟩ := by
  obtain ⟨h1, h2, h3⟩ := h
  simp only [ann_lift_spaces_after]
  rw [lift_maybe_before _ _ h1 h2]

theorem lower_lift_of (a : TypeAnn) (h : lift_idem_prop a) :
    ann_lift_spaces (lower (ann_lift_spaces a)) = ann_lift_spaces a := by
  obtain ⟨h1, h2, h3⟩ := h
  rcases hL : ann_lift_spaces a with ⟨b, i, aft⟩
  rw [hL] at h1 h2 h3
  simp only [] at h1 h2 h3
  rw [lower]
  simp only []
  by_cases hb : b.isEmpty = true
  · by_cases ha : aft.isEmpty = true
    · rw [if_pos hb, if_pos ha]
      simp only [List.isEmpty_iff] at hb ha
      rw [hb, ha]
      exact h1
    · rw [if_pos hb, if_neg ha]
      rw [ann_lift_spaces, h1]
      simp only [List.isEmpty_iff] at hb
      simp only []
      rw [merge_sc_nil_left aft h3, hb]
  · by_cases ha : aft.isEmpty = true
    · rw [if_neg hb, if_pos ha]
      rw [ann_lift_spaces, h1]
      simp only [List.isEmpty_iff] at ha
      simp only []
      rw [merge_sc_nil_right b h2, ha]
    · rw [if_neg hb, if_neg ha]
      rw [ann_lift_spaces, ann_lift_spaces, h1]
      simp only []
      rw [merge_sc_nil_left aft h3, merge_sc_nil_right b h2]

theorem lift_apply_args_ne_nil (a : TypeAnn) (rest : List TypeAnn) :
    (lift_apply_args (a :: rest)).1 ≠ [] := by
  cases rest with
  | nil =>
    rw [lift_apply_args]
    split <;> simp
  | cons b t =>
    rw [lift_apply_args]
    simp

theorem lift_last_ability_ne_nil (x : TypeAnn) (rest : List TypeAnn) :
    (lift_last_ability (x :: rest)).1 ≠ [] := by
  cases rest with
  | nil =>
    rw [lift_last_ability]
    simp
  | cons y t =>
    rw [lift_last_ability]
    simp

theorem lift_last_clause_ne_nil (c : ImplementsClause) (rest : List ImplementsClause) :
    (lift_last_clause (c :: rest)).1 ≠ [] := by
  cases rest with
  | nil =>
    rw [lift_last_clause]
    simp
  | cons d t =>
    rw [lift_last_clause]
    simp

mutual

theorem lift_idem_ann : ∀ a : TypeAnn, lift_idem_prop a
  | .boundVariable v => by
    rw [lift_idem_prop]
    simp only [ann_lift_spaces]
    exact ⟨trivial, sp_run_nil, sp_run_nil⟩
  | .inferred => by
    rw [lift_idem_prop]
    simp only [ann_lift_spaces]
    exact ⟨trivial, sp_run_nil, sp_run_nil⟩
  | .wildcard => by
    rw [lift_idem_prop]
    simp only [ann_lift_spaces]
    exact ⟨trivial, sp_run_nil, sp_run_nil⟩
  | .malformed t => by
    rw [lift_idem_prop]
    simp only [ann_lift_spaces]
    exact ⟨trivial, sp_run_nil, sp_run_nil⟩
  | .spaceBefore x sp => by
    have hx := lift_idem_ann x
    rw [lift_idem_prop] at hx ⊢
    simp only [ann_lift_spaces]
    exact ⟨hx.1, sp_run_merge_sc _ _, hx.2.2⟩
  | .spaceAfter x sp => by
    have hx := lift_idem_ann x
    rw [lift_idem_prop] at hx ⊢
    simp only [ann_lift_spaces]
    exact ⟨hx.1, hx.2.1, sp_run_merge_sc _ _⟩
  | .apply m n args => by
    rw [lift_idem_prop]
    cases args with
    | nil =>
      simp only [ann_lift_spaces]
      simp only [List.isEmpty_nil, if_true]
      refine ⟨?_, sp_run_nil, sp_run_nil⟩
      simp only [ann_lift_spaces]
      simp
    | cons a1 arest =>
      have hP := lift_apply_args_idem (a1 :: arest)
      simp only [ann_lift_spaces]
      simp only [List.isEmpty_cons, Bool.false_eq_true, if_false]
      refine ⟨?_, sp_run_nil, hP.2⟩
      rcases hq : (lift_apply_args (a1 :: arest)).1 with _ | ⟨q, qs⟩
      · exact absurd hq (lift_apply_args_ne_nil a1 arest)
      · rw [hq] at hP
        simp only [ann_lift_spaces]
        simp only [List.isEmpty_cons, Bool.false_eq_true, if_false]
        rw [hP.1]
  | .function args arrow res => by
    have hres := lift_idem_ann res
    have hF := lift_first_arg_idem args
    rw [lift_idem_prop]
    simp only [ann_lift_spaces]
    refine ⟨?_, hF.2, ?_⟩
    · rw [hF.1, after_idem_of res hres]
    · simp only [ann_lift_spaces_after]
      rw [lift_idem_prop] at hres
      exact hres.2.2
  | .tuple elems final ext => by
    rw [lift_idem_prop]
    cases ext with
    | none =>
      simp only [ann_lift_spaces]
      exact ⟨trivial, sp_run_nil, sp_run_nil⟩
    | some e =>
      have he := lift_idem_ann e
      simp only [ann_lift_spaces]
      refine ⟨?_, sp_run_nil, ?_⟩
      · rw [after_idem_of e he]
      · simp only [ann_lift_spaces_after]
        rw [lift_idem_prop] at he
        exact he.2.2
  | .record fields final ext => by
    rw [lift_idem_prop]
    cases ext with
    | none =>
      simp only [ann_lift_spaces]
      exact ⟨trivial, sp_run_nil, sp_run_nil⟩
    | some e =>
      have he := lift_idem_ann e
      simp only [ann_lift_spaces]
      refine ⟨?_, sp_run_nil, ?_⟩
      · rw [after_idem_of e he]
      · simp only [ann_lift_spaces_after]
        rw [lift_idem_prop] at he
        exact he.2.2
  | .tagUnion tags final ext => by
    rw [lift_idem_prop]
    cases ext with
    | none =>
      simp only [ann_lift_spaces]
      exact ⟨trivial, sp_run_nil, sp_run_nil⟩
    | some e =>
      have he := lift_idem_ann e
      simp only [ann_lift_spaces]
      refine ⟨?_, sp_run_nil, ?_⟩
      · rw [after_idem_of e he]
      · simp only [ann_lift_spaces_after]
        rw [lift_idem_prop] at he
        exact he.2.2
  | .whereAnn inner clauses => by
    have hi := lift_idem_ann inner
    have hC := lift_last_clause_idem clauses
    rw [lift_idem_prop]
    simp only [ann_lift_spaces]
    refine ⟨?_, ?_, hC.2⟩
    · rw [before_idem_of inner hi, hC.1]
    · simp only [ann_lift_spaces_before]
      rw [lift_idem_prop] at hi
      exact hi.2.1
  | .asType inner sp header => by
    have hi := lift_idem_ann inner
    have hH := type_head_idem header
    rw [lift_idem_prop]
    simp only [ann_lift_spaces]
    refine ⟨?_, ?_, hH.2⟩
    · rw [before_idem_of inner hi, hH.1]
    · simp only [ann_lift_spaces_before]
      rw [lift_idem_prop] at hi
      exact hi.2.1
termination_by a => sizeOf a

theorem lift_apply_args_idem : ∀ l : List TypeAnn,
    lift_apply_args (lift_apply_args l).1 = ((lift_apply_args l).1, [])
      ∧ sp_run (lift_apply_args l).2
  | [] => by
    constructor
    · simp only [lift_apply_args]
    · simp only [lift_apply_args]
      exact sp_run_nil
  | [last] => by
    have hl := lift_idem_ann last
    rw [lift_idem_prop] at hl
    obtain ⟨h1, h2, h3⟩ := hl
    simp only [lift_apply_args]
    refine ⟨?_, h3⟩
    split
    · rename_i hb
      simp only [lift_apply_args, h1]
      simp
    · rename_i hb
      simp only [lift_apply_args, ann_lift_spaces, h1]
      rw [merge_sc_nil_right _ h2]
      rw [if_neg hb]
  | a :: b :: rest => by
    have ha := lift_idem_ann a
    have hQ := lift_apply_args_idem (b :: rest)
    simp only [lift_apply_args]
    refine ⟨?_, hQ.2⟩
    rcases hq : (lift_apply_args (b :: rest)).1 with _ | ⟨q, qs⟩
    · exact absurd hq (lift_apply_args_ne_nil b rest)
    · rw [hq] at hQ
      simp only [lift_apply_args]
      rw [lower_lift_of a ha, hQ.1]
termination_by l => sizeOf l

theorem lift_first_arg_idem : ∀ l : List TypeAnn,
    lift_first_arg (lift_first_arg l).1 = ((lift_first_arg l).1, [])
      ∧ sp_run (lift_first_arg l).2
  | [] => by
    constructor
    · simp only [lift_first_arg]
    · simp only [lift_first_arg]
      exact sp_run_nil
  | first :: rest => by
    have hf := lift_idem_ann first
    simp only [lift_first_arg]
    constructor
    · rw [before_idem_of first hf]
    · simp only [ann_lift_spaces_before]
      rw [lift_idem_prop] at hf
      exact hf.2.1
termination_by l => sizeOf l

theorem lift_last_ability_idem : ∀ l : List TypeAnn,
    lift_last_ability (lift_last_ability l).1 = ((lift_last_ability l).1, [])
      ∧ sp_run (lift_last_ability l).2
  | [] => by
    constructor
    · simp only [lift_last_ability]
    · simp only [lift_last_ability]
      exact sp_run_nil
  | [x] => by
    have hx := lift_idem_ann x
    simp only [lift_last_ability]
    constructor
    · rw [after_idem_of x hx]
    · simp only [ann_lift_spaces_after]
      rw [lift_idem_prop] at hx
      exact hx.2.2
  | x :: y :: rest => by
    have hR := lift_last_ability_idem (y :: rest)
    simp only [lift_last_ability]
    refine ⟨?_, hR.2⟩
    rcases hq : (lift_last_ability (y :: rest)).1 with _ | ⟨q, qs⟩
    · exact absurd hq (lift_last_ability_ne_nil y rest)
    · rw [hq] at hR
      simp only [lift_last_ability]
      rw [hR.1]
termination_by l => sizeOf l

theorem clause_idem : ∀ c : ImplementsClause,
    implements_clause_lift_spaces_after ((implements_clause_lift_spaces_after c).item)
        = ⟨(implements_clause_lift_spaces_after c).item, []⟩
      ∧ sp_run (implements_clause_lift_spaces_after c).after
  | .mk var ab => by
    have hA := lift_last_ability_idem ab
    simp only [implements_clause_lift_spaces_after]
    constructor
    · rw [hA.1]
    · exact hA.2
termination_by c => sizeOf c

theorem lift_last_clause_idem : ∀ l : List ImplementsClause,
    lift_last_clause (lift_last_clause l).1 = ((lift_last_clause l).1, [])
      ∧ sp_run (lift_last_clause l).2
  | [] => by
    constructor
    · simp only [lift_last_clause]
    · simp only [lift_last_clause]
      exact sp_run_nil
  | [c] => by
    have hc := clause_idem c
    simp only [lift_last_clause]
    constructor
    · rw [hc.1]
    · exact hc.2
  | c :: d :: rest => by
    have hR := lift_last_clause_idem (d :: rest)
    simp only [lift_last_clause]
    refine ⟨?_, hR.2⟩
    rcases hq : (lift_last_clause (d :: rest)).1 with _ | ⟨q, qs⟩
    · exact absurd hq (lift_last_clause_ne_nil d rest)
    · rw [hq] at hR
      simp only [lift_last_clause]
      rw [hR.1]
termination_by l => sizeOf l

end

/-- C7: space-lifting is idempotent. Re-lifting the node reconstructed by
lower from a lifted result reproduces exactly the same
(before, item, after) triple, and lifting an item that a previous lift
already produced returns it unchanged with empty leading and trailing
runs. -/
theorem c7_lift_idempotent (a : TypeAnn) :
    ann_lift_spaces (lower (ann_lift_spaces a)) = ann_lift_spaces a
      ∧ ann_lift_spaces ((ann_lift_spaces a).item)
          = ⟨[], (ann_lift_spaces a).item, []⟩ := by
  have h := lift_idem_ann a
  refine ⟨lower_lift_of a h, ?_⟩
  rw [lift_idem_prop] at h
  exact h.1
